import Mathlib

/-!
# Shallow embedding of the `fast-paillier` library core

This file embeds the core of the `fast-paillier` Rust library
(`src/utils.rs`, `src/encryption_key.rs`, `src/decryption_key.rs`,
`src/lib.rs`) into Lean 4 and proves the testable properties of its
specification.

Arbitrary-precision integers (`rug::Integer`, backed by GMP) are modelled by
`Int`.  The GMP operations are modelled as follows:

* `modulo` (Euclidean, non-negative remainder) is Lean's `Int.emod` (`%`);
* the `%` operator of `rug` (remainder with the sign of the dividend) is
  `Int.tmod`;
* truncating division `/` of `rug` is `Int.tdiv`;
* `>> 1` (arithmetic shift) is `Int.fdiv · 2`;
* `invert` (GMP `mpz_invert`) returns the unique inverse in `[0, |n|)` when
  it exists: it is modelled by a bounded search, which has exactly the same
  input/output behaviour;
* `pow_mod` (GMP `mpz_powm`) reduces the base modulo `m` after powering and
  returns a result in `[0, |m|)`; a negative exponent inverts the base
  (failing when the inverse does not exist);
* randomness (`random_below`, `random_bits`) is modelled by an explicit
  stream of draws, and the probabilistic primality test of GMP by a boolean
  oracle, so that loops that retry until the randomness cooperates become
  structural recursion over the stream of draws.

Results of fallible Rust functions (`Result<T, Error>`) are modelled with
`Except Reason`.
-/

/-- Error reasons of the library (`src/lib.rs`, `enum Bug`). -/
inductive Bug where
  | PowModUndef
deriving DecidableEq, Repr

/-- Error reasons of the library (`src/lib.rs`, `enum Reason`).  The public
`Error` type is a transparent wrapper around `Reason`, so we work with
`Reason` directly. -/
inductive Reason where
  | InvalidPQ
  | Encrypt
  | Decrypt
  | Ops
  | BuildFastExp
  | Bug (bug : Bug)
deriving DecidableEq, Repr

instance {ε α : Type} [DecidableEq ε] [DecidableEq α] : DecidableEq (Except ε α) :=
  fun a b =>
    match a, b with
    | .ok x, .ok y =>
      match decEq x y with
      | .isTrue h => .isTrue (by rw [h])
      | .isFalse h => .isFalse (by intro hc; cases hc; exact h rfl)
    | .error x, .error y =>
      match decEq x y with
      | .isTrue h => .isTrue (by rw [h])
      | .isFalse h => .isFalse (by intro hc; cases hc; exact h rfl)
    | .ok _, .error _ => .isFalse (by intro hc; cases hc)
    | .error _, .ok _ => .isFalse (by intro hc; cases hc)

/-- Modular inverse, modelling GMP `mpz_invert` (used through
`rug`'s `invert`/`invert_ref`): when `gcd(x, n) = 1` and `n ≠ 0` it returns
the unique `y ∈ [0, |n|)` with `x * y ≡ 1 (mod n)`, otherwise it fails. -/
def invert (x n : Int) : Option Int :=
  if n = 0 then none
  else ((List.range n.natAbs).find? (fun (y : Nat) => (x * (y : Int)) % n == 1 % n)).map
    (fun (y : Nat) => (y : Int))

/-- Modular exponentiation, modelling GMP `mpz_powm` (used through `rug`'s
`pow_mod`/`pow_mod_ref`): the result is in `[0, |m|)`; a negative exponent
`e` means the inverse of the base is raised to `|e|`, failing when the
inverse does not exist. -/
def pow_mod (x e m : Int) : Option Int :=
  if m = 0 then none
  else if 0 ≤ e then some (x ^ e.toNat % m)
  else (invert x m).map fun y => y ^ (-e).toNat % m

/-- `utils::in_mult_group`: checks that `x` is in `Z*_n`
(`x.cmp0().is_ge() && gcd(x, n) == 1`). -/
def in_mult_group (x n : Int) : Bool :=
  decide (0 ≤ x) && (Int.gcd x n == 1)

/-- `utils::in_mult_group_abs`: checks that `abs(x)` is in `Z*_n`
(`x.gcd_ref(n) == 1`; GMP's gcd is the gcd of the absolute values). -/
def in_mult_group_abs (x n : Int) : Bool :=
  Int.gcd x n == 1

/-- `utils::sample_in_mult_group`: repeatedly draws a uniform value below
`n` until the draw lands in `Z*_n`.  The randomness source is modelled by
the list `draws`: the `k`-th loop iteration uses the `k`-th entry, reduced
into `[0, n)` the way `random_below` produces its value.  An exhausted
draw list models a run in which the loop has not terminated yet. -/
def sample_in_mult_group (draws : List Int) (n : Int) : Option Int :=
  match draws with
  | [] => none
  | d :: rest =>
    let x := d % n
    if in_mult_group x n then some x else sample_in_mult_group rest n

/-- The static table of small odd primes used by the sieve.

Modelled from the spec: the file `src/utils/small_primes.rs` holding the
static `SMALL_PRIMES` table is not part of the published sources; per the
spec it is a "Static list of the first ≥150 odd primes". -/
def SMALL_PRIMES : List Nat :=
  [3, 5, 7, 11, 13, 17, 19, 23, 29, 31, 37, 41, 43, 47, 53, 59, 61, 67, 71,
   73, 79, 83, 89, 97, 101, 103, 107, 109, 113, 127, 131, 137, 139, 149, 151,
   157, 163, 167, 173, 179, 181, 191, 193, 197, 199, 211, 223, 227, 229, 233,
   239, 241, 251, 257, 263, 269, 271, 277, 281, 283, 293, 307, 311, 313, 317,
   331, 337, 347, 349, 353, 359, 367, 373, 379, 383, 389, 397, 401, 409, 419,
   421, 431, 433, 439, 443, 449, 457, 461, 463, 467, 479, 487, 491, 499, 503,
   509, 521, 523, 541, 547, 557, 563, 569, 571, 577, 587, 593, 599, 601, 607,
   613, 617, 619, 631, 641, 643, 647, 653, 659, 661, 673, 677, 683, 691, 701,
   709, 719, 727, 733, 739, 743, 751, 757, 761, 769, 773, 787, 797, 809, 811,
   821, 823, 827, 829, 839, 853, 857, 859, 863, 877, 881, 883, 887, 907, 911,
   919, 929, 937, 941, 947, 953, 967, 971, 977, 983, 991, 997]

/-- The sieve's rejection test on a candidate `x` for a small prime `s`:
`x.mod_u(small_prime) == (small_prime - 1) / 2`. -/
def sieve_test (x s : Nat) : Bool :=
  x % s == (s - 1) / 2

/-- `utils::sieve_generate_safe_primes`: generates a safe prime of
bit-length `bits` by rejection sampling, sieving candidates by the small
prime table before running the (probabilistic) primality tests.

The GMP primality test `is_probably_prime(25)` is modelled by the boolean
oracle `isPrime`, and each `random_bits(bits - 1)` call by an entry of
`draws` reduced below `2 ^ (bits - 1)`.  An exhausted draw list models a
run in which the loop has not succeeded yet. -/
def sieve_generate_safe_primes (isPrime : Nat → Bool) (bits : Nat)
    (amount : Nat) : List Nat → Option Nat
  | [] => none
  | d :: rest =>
    -- generate an odd number of length `bits - 2`:
    -- `random_bits` never sets the `bits-1`-th bit but may leave the
    -- `bits-2`-th unset, so it is forced, and so is the low bit
    let x0 := d % 2 ^ (bits - 1)
    let x1 := x0 ||| 2 ^ (bits - 2)
    let x := x1 ||| 1
    if (SMALL_PRIMES.take amount).any fun s => sieve_test x s then
      sieve_generate_safe_primes isPrime bits amount rest
    else if isPrime x then
      let q := 2 * x + 1
      if isPrime q then some q
      else sieve_generate_safe_primes isPrime bits amount rest
    else sieve_generate_safe_primes isPrime bits amount rest

/-- `utils::generate_safe_prime`: the public safe-prime generator, fixing
the sieve parameter to 135. -/
def generate_safe_prime (isPrime : Nat → Bool) (draws : List Nat)
    (bits : Nat) : Option Nat :=
  sieve_generate_safe_primes isPrime bits 135 draws

/-- `utils::CrtExp`: precomputed data for CRT-accelerated exponentiation
modulo `n = n1 * n2`. -/
structure CrtExp where
  n : Int
  n1 : Int
  phi_n1 : Int
  n2 : Int
  phi_n2 : Int
  beta : Int
deriving DecidableEq, Repr

/-- `utils::Exponent`: an exponent prepared for `CrtExp::exp`. -/
structure Exponent where
  e_mod_phi_pp : Int
  e_mod_phi_qq : Int
  is_negative : Bool
deriving DecidableEq, Repr

/-- `CrtExp::build`. -/
def CrtExp.build (n1 phi_n1 n2 phi_n2 : Int) : Option CrtExp :=
  if n1 ≤ 0 || n2 ≤ 0 || phi_n1 ≤ 0 || phi_n2 ≤ 0 || phi_n1 ≥ n1 || phi_n2 ≥ n2 then
    none
  else
    (invert n1 n2).map fun beta =>
      { n := n1 * n2, n1 := n1, phi_n1 := phi_n1, n2 := n2, phi_n2 := phi_n2,
        beta := beta }

/-- `CrtExp::build_n`: builds a `CrtExp` for modulus `n = p * q` with
`phi(p) = p - 1`, `phi(q) = q - 1`. -/
def CrtExp.build_n (p q : Int) : Option CrtExp :=
  CrtExp.build p (p - 1) q (q - 1)

/-- `CrtExp::build_nn`: builds a `CrtExp` for modulus `nn = (p * q)^2` with
`phi(p^2) = p^2 - p`, `phi(q^2) = q^2 - q`. -/
def CrtExp.build_nn (p q : Int) : Option CrtExp :=
  CrtExp.build (p * p) (p * p - p) (q * q) (q * q - q)

/-- `CrtExp::prepare_exponent`: records `|e| mod phi(n1)`, `|e| mod phi(n2)`
(both via the Euclidean `modulo`) and the sign of `e`. -/
def CrtExp.prepare_exponent (c : CrtExp) (e : Int) : Exponent :=
  let neg_e := -e
  let is_neg := decide (e < 0)
  let e' := if is_neg then neg_e else e
  { e_mod_phi_pp := e' % c.phi_n1
    e_mod_phi_qq := e' % c.phi_n2
    is_negative := is_neg }

/-- `CrtExp::exp`: exponentiation modulo `n` by CRT combination of two
half-size exponentiations.  The source `expect`s the two inner `pow_mod`
calls (their exponents are non-negative by construction); here a failing
inner call propagates as `none`. -/
def CrtExp.exp (c : CrtExp) (x : Int) (e : Exponent) : Option Int :=
  let s1 := x % c.n1
  let s2 := x % c.n2
  match pow_mod s1 e.e_mod_phi_pp c.n1, pow_mod s2 e.e_mod_phi_qq c.n2 with
  | some r1, some r2 =>
    let result := ((r2 - r1) * c.beta) % c.n2 * c.n1 + r1
    if e.is_negative then invert result c.n else some result
  | _, _ => none

/-- `EncryptionKey` (`src/encryption_key.rs`). -/
structure EncryptionKey where
  n : Int
  nn : Int
  half_n : Int
  neg_half_n : Int
deriving DecidableEq, Repr

/-- `EncryptionKey::from_n`: precomputes `N^2`, `N >> 1` and its negation. -/
def EncryptionKey.from_n (n : Int) : EncryptionKey :=
  let nn := n * n
  let half_n := n.fdiv 2
  let neg_half_n := -half_n
  { n := n, nn := nn, half_n := half_n, neg_half_n := neg_half_n }

/-- `EncryptionKey::in_signed_group`: checks that `x ∈ {-N/2, .., N/2}`. -/
def EncryptionKey.in_signed_group (ek : EncryptionKey) (x : Int) : Bool :=
  decide (ek.neg_half_n ≤ x) && decide (x ≤ ek.half_n)

/-- `EncryptionKey::l`: the Paillier `L` function `(x - 1) / N`, defined
when `x ≡ 1 (mod N)` and `x ∈ Z*_{N^2}`.  `rug`'s `%` and `/` are the
truncating remainder and division. -/
def EncryptionKey.l (ek : EncryptionKey) (x : Int) : Option Int :=
  if x.tmod ek.n ≠ 1 then none
  else if ¬in_mult_group x ek.nn then none
  else some ((x - 1).tdiv ek.n)

/-- `EncryptionKey::encrypt_with`: encrypts `x ∈ {-N/2, .., N/2}` with a
nonce from `Z*_N`; `c = (1 + x'N) * nonce^N mod N^2` where `x' = x mod N`.
The final reduction uses `modulo` (Euclidean); the reduction of `a` uses
the truncating `%`. -/
def EncryptionKey.encrypt_with (ek : EncryptionKey) (x nonce : Int) :
    Except Reason Int :=
  if ¬ek.in_signed_group x || ¬in_mult_group nonce ek.n then
    .error .Encrypt
  else
    let x' := if 0 ≤ x then x else x + ek.n
    -- a = (1 + N)^x mod N^2 = (1 + xN) mod N^2
    let a := (1 + x' * ek.n).tmod ek.nn
    -- b = nonce^N mod N^2
    match pow_mod nonce ek.n ek.nn with
    | none => .error (.Bug .PowModUndef)
    | some b => .ok ((a * b) % ek.nn)

/-- `EncryptionKey::oadd`. -/
def EncryptionKey.oadd (ek : EncryptionKey) (c1 c2 : Int) : Except Reason Int :=
  if ¬in_mult_group c1 ek.nn || ¬in_mult_group c2 ek.nn then .error .Ops
  else .ok ((c1 * c2).tmod ek.nn)

/-- `EncryptionKey::oneg`. -/
def EncryptionKey.oneg (ek : EncryptionKey) (c : Int) : Except Reason Int :=
  match invert c ek.nn with
  | none => .error .Ops
  | some c' => .ok c'

/-- `EncryptionKey::osub`. -/
def EncryptionKey.osub (ek : EncryptionKey) (c1 c2 : Int) : Except Reason Int :=
  if ¬in_mult_group c1 ek.nn then .error .Ops
  else match ek.oneg c2 with
    | .error e => .error e
    | .ok c2' => .ok ((c1 * c2').tmod ek.nn)

/-- `EncryptionKey::omul`: `ciphertext ^ scalar mod N^2` via the signed
`pow_mod` of the bignum library. -/
def EncryptionKey.omul (ek : EncryptionKey) (scalar cipher : Int) :
    Except Reason Int :=
  if ¬in_mult_group_abs scalar ek.n || ¬in_mult_group cipher ek.nn then
    .error .Ops
  else
    match pow_mod cipher scalar ek.nn with
    | none => .error .Ops
    | some r => .ok r

/-- `DecryptionKey` (`src/decryption_key.rs`). -/
structure DecryptionKey where
  ek : EncryptionKey
  /-- `lcm(p-1, q-1)` -/
  lambda : Int
  /-- `lambda^-1 mod N` -/
  mu : Int
  p : Int
  q : Int
  crt_mod_nn : CrtExp
  /-- prepared exponent for `x ^ N mod N^2` (fast encryption) -/
  exp_n : Exponent
  /-- prepared exponent for `x ^ lambda mod N^2` (fast decryption) -/
  exp_lambda : Exponent
deriving DecidableEq, Repr

/-- `DecryptionKey::from_primes`: derives the full decryption key from the
primes `p`, `q`. -/
def DecryptionKey.from_primes (p q : Int) : Except Reason DecryptionKey :=
  -- Paillier doesn't work if p == q
  if p = q then .error .InvalidPQ
  else
    let pm1 := p - 1
    let qm1 := q - 1
    let ek := EncryptionKey.from_n (p * q)
    let lambda : Int := (Int.lcm pm1 qm1 : Nat)
    if lambda = 0 then .error .InvalidPQ
    else
      match invert lambda ek.n with
      | none => .error .InvalidPQ
      | some u =>
        match CrtExp.build_nn p q with
        | none => .error .BuildFastExp
        | some crt_mod_nn =>
          .ok { ek := ek, lambda := lambda, mu := u, p := p, q := q,
                crt_mod_nn := crt_mod_nn,
                exp_n := crt_mod_nn.prepare_exponent ek.n,
                exp_lambda := crt_mod_nn.prepare_exponent lambda }

/-- `DecryptionKey::n`: the Paillier modulus. -/
def DecryptionKey.n (dk : DecryptionKey) : Int :=
  dk.ek.n

/-- `DecryptionKey::decrypt`: `m = L(c^lambda mod N^2) * mu mod N`, then
mapped into the signed range `{-N/2, .., N/2}`. -/
def DecryptionKey.decrypt (dk : DecryptionKey) (c : Int) : Except Reason Int :=
  if ¬in_mult_group c dk.ek.nn then .error .Decrypt
  else
    -- a = c^lambda mod n^2
    match dk.crt_mod_nn.exp c dk.exp_lambda with
    | none => .error .Decrypt
    | some a =>
      -- ell = L(a, N)
      match dk.ek.l a with
      | none => .error .Decrypt
      | some l =>
        -- m = lu = L(c^lambda) * u mod n
        let plaintext := (l * dk.mu).tmod dk.ek.n
        if plaintext * 2 ≥ dk.n then .ok (plaintext - dk.n)
        else .ok plaintext

/-- `DecryptionKey::encrypt_with`: the fast encryption path, using the
prepared CRT exponent for `N`.  The final reduction uses the truncating
`%` of `rug`. -/
def DecryptionKey.encrypt_with (dk : DecryptionKey) (x nonce : Int) :
    Except Reason Int :=
  if ¬dk.ek.in_signed_group x || ¬in_mult_group nonce dk.n then
    .error .Encrypt
  else
    let x' := if 0 ≤ x then x else x + dk.n
    -- a = (1 + N)^x mod N^2 = (1 + xN) mod N^2
    let a := (1 + x' * dk.ek.n).tmod dk.ek.nn
    -- b = nonce^N mod N^2
    match dk.crt_mod_nn.exp nonce dk.exp_n with
    | none => .error .Encrypt
    | some b => .ok ((a * b).tmod dk.ek.nn)

/-- `DecryptionKey::omul`: the fast scalar-multiplication path, preparing
an ad-hoc CRT exponent for the scalar. -/
def DecryptionKey.omul (dk : DecryptionKey) (scalar cipher : Int) :
    Except Reason Int :=
  if ¬in_mult_group_abs scalar dk.n || ¬in_mult_group cipher dk.ek.nn then
    .error .Ops
  else
    let e := dk.crt_mod_nn.prepare_exponent scalar
    match dk.crt_mod_nn.exp cipher e with
    | none => .error .Ops
    | some r => .ok r

/-- `AnyEncryptionKeyExt::encrypt_with_random` (`src/lib.rs`), instantiated
at `EncryptionKey`: samples a nonce from `Z*_N` and encrypts with it,
returning the ciphertext together with the nonce. -/
def encrypt_with_random (ek : EncryptionKey) (draws : List Int) (x : Int) :
    Option (Except Reason (Int × Int)) :=
  (sample_in_mult_group draws ek.n).map fun nonce =>
    (ek.encrypt_with x nonce).map fun c => (c, nonce)

/-- The signed residue `{0, .., N-1} → {-N/2, .., N/2}` mapping used by
`decrypt`'s last step (and by the integration tests' `signed_modulo`):
`x mod N`, minus `N` when `2 * (x mod N) ≥ N`. -/
def signed_residue (m N : Int) : Int :=
  let m' := m % N
  if m' * 2 ≥ N then m' - N else m'

/-! ## Basic arithmetic helpers and the specification of `invert` -/

/-- `a % n` is congruent to `a`. -/
theorem emod_modEq (a n : Int) : a % n ≡ a [ZMOD n] := by
  unfold Int.ModEq
  exact Int.emod_emod_of_dvd a dvd_rfl

theorem natModEq_intCast {a b n : Nat} (h : a ≡ b [MOD n]) :
    (a : Int) ≡ (b : Int) [ZMOD (n : Int)] := by
  unfold Int.ModEq
  rw [← Int.natCast_mod, ← Int.natCast_mod b n]
  exact congrArg (fun k : Nat => (k : Int)) h

theorem gcd_one_of_modEq {a b n : Int} (h : a ≡ b [ZMOD n])
    (hb : Int.gcd b n = 1) : Int.gcd a n = 1 := by
  rw [Int.gcd_eq_one_iff_coprime] at hb ⊢
  obtain ⟨k, hk⟩ := h.symm.dvd
  have hab : a = b + n * k := by linarith
  rw [hab]
  exact IsCoprime.add_mul_left_left hb k

theorem gcd_one_of_mul_modEq_one {x y n : Int} (h : x * y ≡ 1 [ZMOD n]) :
    Int.gcd x n = 1 := by
  rw [Int.gcd_eq_one_iff_coprime]
  obtain ⟨k, hk⟩ := h.dvd
  exact ⟨y, k, by linear_combination -hk⟩

theorem modEq_cancel_left {n x a b : Int} (hn : 0 < n)
    (hx : Int.gcd x n = 1) (h : x * a ≡ x * b [ZMOD n]) : a ≡ b [ZMOD n] := by
  have h2 := Int.ModEq.cancel_left_div_gcd hn h
  rwa [Int.gcd_comm, hx, Nat.cast_one, Int.ediv_one] at h2

theorem int_eq_of_modEq {M a b : Int} (h : a ≡ b [ZMOD M])
    (ha0 : 0 ≤ a) (haM : a < M) (hb0 : 0 ≤ b) (hbM : b < M) : a = b := by
  unfold Int.ModEq at h
  rwa [Int.emod_eq_of_lt ha0 haM, Int.emod_eq_of_lt hb0 hbM] at h

theorem invert_some {x n y : Int} (hn : 0 < n) (h : invert x n = some y) :
    0 ≤ y ∧ y < n ∧ x * y ≡ 1 [ZMOD n] := by
  unfold invert at h
  rw [if_neg (by omega)] at h
  rcases Option.map_eq_some'.mp h with ⟨y0, hfind, rfl⟩
  have hmem := List.mem_of_find?_eq_some hfind
  have hpred := List.find?_some hfind
  have hy0 : y0 < n.natAbs := List.mem_range.mp hmem
  refine ⟨by positivity, by omega, ?_⟩
  have heq := beq_iff_eq.mp hpred
  exact heq

theorem invert_isSome {x n : Int} (hn : 0 < n) (h : Int.gcd x n = 1) :
    ∃ y, invert x n = some y := by
  rw [← Option.isSome_iff_exists]
  unfold invert
  rw [if_neg (by omega), Option.isSome_map', List.find?_isSome]
  have hco : IsCoprime x n := Int.gcd_eq_one_iff_coprime.mp h
  obtain ⟨u, v, huv⟩ := hco
  refine ⟨(u % n).toNat, List.mem_range.mpr ?_, ?_⟩
  · have h1 : 0 ≤ u % n := Int.emod_nonneg u (by omega)
    have h2 : u % n < n := Int.emod_lt_of_pos u hn
    omega
  · rw [beq_iff_eq]
    have h1 : 0 ≤ u % n := Int.emod_nonneg u (by omega)
    rw [Int.toNat_of_nonneg h1]
    have step1 : x * (u % n) ≡ x * u [ZMOD n] :=
      Int.ModEq.mul_left x (emod_modEq u n)
    have step2 : x * u ≡ 1 [ZMOD n] := by
      rw [Int.modEq_iff_dvd]
      exact ⟨v, by linear_combination -huv⟩
    exact step1.trans step2

theorem invert_eq {x n w : Int} (hn : 0 < n) (hw0 : 0 ≤ w) (hwn : w < n)
    (hw : x * w ≡ 1 [ZMOD n]) : invert x n = some w := by
  obtain ⟨y, hy⟩ := invert_isSome hn (gcd_one_of_mul_modEq_one hw)
  obtain ⟨hy0, hyn, hxy⟩ := invert_some hn hy
  have hcong : y ≡ w [ZMOD n] :=
    modEq_cancel_left hn (gcd_one_of_mul_modEq_one hw) (hxy.trans hw.symm)
  rw [hy, int_eq_of_modEq hcong hy0 hyn hw0 hwn]

/-! ## Euler's theorem, in the form needed for `CrtExp` -/

/-- Euler's totient theorem over `Int`, for a positive modulus given as a
natural number. -/
theorem euler_totient_int {n : Nat} (hn : 0 < n) {a : Int}
    (h : Int.gcd a (n : Int) = 1) : a ^ n.totient ≡ 1 [ZMOD (n : Int)] := by
  have hn' : (0 : Int) < (n : Int) := by exact_mod_cast hn
  have hb0 : 0 ≤ a % (n : Int) := Int.emod_nonneg a (by omega)
  set b : Nat := (a % (n : Int)).toNat with hb
  have hcast : ((b : Int)) = a % (n : Int) := Int.toNat_of_nonneg hb0
  have hmod : (b : Int) ≡ a [ZMOD (n : Int)] := by
    rw [hcast]; exact emod_modEq a n
  have hgcdb : Int.gcd (b : Int) (n : Int) = 1 := gcd_one_of_modEq hmod h
  have hco : Nat.Coprime b n := by
    rwa [Int.gcd_natCast_natCast] at hgcdb
  have hnat : b ^ n.totient ≡ 1 [MOD n] := Nat.ModEq.pow_totient hco
  have hint : ((b : Int)) ^ n.totient ≡ 1 [ZMOD (n : Int)] := by
    have h2 := natModEq_intCast hnat
    push_cast at h2
    exact h2
  exact ((hmod.pow _).symm.trans hint)

/-- Euler's theorem for a prime modulus `p` with exponent `p - 1`. -/
theorem euler_prime_int {p : Nat} (hp : p.Prime) {a : Int}
    (h : Int.gcd a (p : Int) = 1) :
    a ^ ((p : Int) - 1).toNat ≡ 1 [ZMOD (p : Int)] := by
  have h1 : (1 : Nat) ≤ p := hp.one_lt.le
  have hsub : ((p : Int) - 1) = ((p - 1 : Nat) : Int) := by
    push_cast [h1]; ring
  rw [hsub, Int.toNat_natCast, ← Nat.totient_prime hp]
  exact euler_totient_int hp.pos h

/-- Euler's theorem for the square of a prime `p` with exponent `p^2 - p`. -/
theorem euler_prime_sq_int {p : Nat} (hp : p.Prime) {a : Int}
    (h : Int.gcd a ((p : Int) * p) = 1) :
    a ^ ((p : Int) * p - p).toNat ≡ 1 [ZMOD ((p : Int) * p)] := by
  have h1 : (1 : Nat) ≤ p := hp.one_lt.le
  have hpp : ((p : Int) * p) = ((p * p : Nat) : Int) := by push_cast; ring
  have hφ : (p * p : Nat).totient = p * p - p := by
    have h2 : (p ^ 2 : Nat).totient = p ^ (2 - 1) * (p - 1) :=
      Nat.totient_prime_pow hp (by omega)
    have h3 : (p ^ 2 : Nat) = p * p := by ring
    have h4 : p ^ (2 - 1) * (p - 1) = p * (p - 1) := by norm_num
    have h5 : p * (p - 1) = p * p - p := Nat.mul_sub_one p p
    rw [h3] at h2
    omega
  have hsub : ((p : Int) * p - p) = ((p * p - p : Nat) : Int) := by
    push_cast [Nat.le_mul_of_pos_left p (by omega : 0 < p)]
    ring
  rw [hsub, Int.toNat_natCast, ← hφ, hpp]
  rw [hpp] at h
  exact euler_totient_int (by positivity) h

/-- `gcd` with the modulus is preserved by taking powers. -/
theorem gcd_pow_left {x n : Int} (k : Nat) (h : Int.gcd x n = 1) :
    Int.gcd (x ^ k) n = 1 := by
  rw [Int.gcd_eq_one_iff_coprime] at h ⊢
  exact h.pow_left

/-! ## Correctness of `CrtExp::exp` -/

/-- `pow_mod` on a non-negative exponent. -/
theorem pow_mod_of_nonneg {x e m : Int} (hm : m ≠ 0) (he : 0 ≤ e) :
    pow_mod x e m = some (x ^ e.toNat % m) := by
  unfold pow_mod
  rw [if_neg hm, if_pos he]

/-- `pow_mod` on a negative exponent. -/
theorem pow_mod_of_neg {x e m : Int} (hm : m ≠ 0) (he : e < 0) :
    pow_mod x e m = (invert x m).map fun y => y ^ (-e).toNat % m := by
  unfold pow_mod
  rw [if_neg hm, if_neg (by omega)]

/-- `prepare_exponent` on a non-negative exponent. -/
theorem prepare_exponent_of_nonneg (crt : CrtExp) {e : Int} (he : 0 ≤ e) :
    crt.prepare_exponent e =
      { e_mod_phi_pp := e % crt.phi_n1, e_mod_phi_qq := e % crt.phi_n2,
        is_negative := false } := by
  unfold CrtExp.prepare_exponent
  simp only [decide_eq_true_eq]
  rw [if_neg (by omega), decide_eq_false (by omega)]

/-- `prepare_exponent` on a negative exponent. -/
theorem prepare_exponent_of_neg (crt : CrtExp) {e : Int} (he : e < 0) :
    crt.prepare_exponent e =
      { e_mod_phi_pp := (-e) % crt.phi_n1, e_mod_phi_qq := (-e) % crt.phi_n2,
        is_negative := true } := by
  unfold CrtExp.prepare_exponent
  rw [decide_eq_true (by omega : e < 0)]
  simp

/-- Reducing a non-negative exponent modulo `phi` does not change the power
of an element coprime to the modulus, provided `phi` has the Euler property
for that modulus. -/
theorem pow_emod_phi_modEq {n1 phi1 : Int} (hphi : 0 < phi1)
    (heuler : ∀ a : Int, Int.gcd a n1 = 1 → a ^ phi1.toNat ≡ 1 [ZMOD n1])
    {x : Int} (hx : Int.gcd x n1 = 1) {f : Int} (hf : 0 ≤ f) :
    x ^ (f % phi1).toNat ≡ x ^ f.toNat [ZMOD n1] := by
  have h1 : 0 ≤ f % phi1 := Int.emod_nonneg f (by omega)
  have h2 : 0 ≤ f / phi1 := Int.ediv_nonneg hf (le_of_lt hphi)
  have hd : f.toNat = phi1.toNat * (f / phi1).toNat + (f % phi1).toNat := by
    have hcast : (f.toNat : Int) =
        ((phi1.toNat * (f / phi1).toNat + (f % phi1).toNat : Nat) : Int) := by
      push_cast
      rw [Int.toNat_of_nonneg hf, Int.toNat_of_nonneg (le_of_lt hphi),
        Int.toNat_of_nonneg h2, Int.toNat_of_nonneg h1]
      linarith [Int.ediv_add_emod f phi1]
    exact_mod_cast hcast
  have step : x ^ f.toNat ≡ x ^ (f % phi1).toNat [ZMOD n1] := by
    calc x ^ f.toNat
        = (x ^ phi1.toNat) ^ (f / phi1).toNat * x ^ (f % phi1).toNat := by
          rw [← pow_mul, ← pow_add, ← hd]
      _ ≡ 1 ^ (f / phi1).toNat * x ^ (f % phi1).toNat [ZMOD n1] :=
          Int.ModEq.mul (Int.ModEq.pow _ (heuler x hx)) Int.ModEq.rfl
      _ = x ^ (f % phi1).toNat := by rw [one_pow, one_mul]
  exact step.symm

/-- The CRT core computation: for a non-negative exponent `f`, the combined
value computed by `CrtExp::exp` is exactly `x ^ f mod n1*n2`. -/
theorem crt_combine_eq {n1 phi1 n2 phi2 beta_v : Int}
    (h1 : 0 < n1) (h2 : 0 < n2) (hco : Int.gcd n1 n2 = 1)
    (hbeta : n1 * beta_v ≡ 1 [ZMOD n2])
    (hphi1 : 0 < phi1) (hphi2 : 0 < phi2)
    (heuler1 : ∀ a : Int, Int.gcd a n1 = 1 → a ^ phi1.toNat ≡ 1 [ZMOD n1])
    (heuler2 : ∀ a : Int, Int.gcd a n2 = 1 → a ^ phi2.toNat ≡ 1 [ZMOD n2])
    {x : Int} (hx : Int.gcd x (n1 * n2) = 1) {f : Int} (hf : 0 ≤ f) :
    (((x % n2) ^ (f % phi2).toNat % n2 -
        (x % n1) ^ (f % phi1).toNat % n1) * beta_v % n2 * n1 +
        (x % n1) ^ (f % phi1).toNat % n1) = x ^ f.toNat % (n1 * n2) := by
  have hx1 : Int.gcd x n1 = 1 := by
    rw [Int.gcd_eq_one_iff_coprime] at hx ⊢
    exact hx.of_mul_right_left
  have hx2 : Int.gcd x n2 = 1 := by
    rw [Int.gcd_eq_one_iff_coprime] at hx ⊢
    rw [mul_comm] at hx
    exact hx.of_mul_right_left
  set r1 := (x % n1) ^ (f % phi1).toNat % n1 with hr1def
  set r2 := (x % n2) ^ (f % phi2).toNat % n2 with hr2def
  set y := (r2 - r1) * beta_v % n2 * n1 + r1 with hydef
  have hr1cong : r1 ≡ x ^ f.toNat [ZMOD n1] := by
    calc r1 ≡ (x % n1) ^ (f % phi1).toNat [ZMOD n1] := emod_modEq _ n1
      _ ≡ x ^ (f % phi1).toNat [ZMOD n1] := Int.ModEq.pow _ (emod_modEq x n1)
      _ ≡ x ^ f.toNat [ZMOD n1] := pow_emod_phi_modEq hphi1 heuler1 hx1 hf
  have hr2cong : r2 ≡ x ^ f.toNat [ZMOD n2] := by
    calc r2 ≡ (x % n2) ^ (f % phi2).toNat [ZMOD n2] := emod_modEq _ n2
      _ ≡ x ^ (f % phi2).toNat [ZMOD n2] := Int.ModEq.pow _ (emod_modEq x n2)
      _ ≡ x ^ f.toNat [ZMOD n2] := pow_emod_phi_modEq hphi2 heuler2 hx2 hf
  have hr1b : 0 ≤ r1 ∧ r1 < n1 :=
    ⟨Int.emod_nonneg _ (by omega), Int.emod_lt_of_pos _ h1⟩
  have haux : 0 ≤ (r2 - r1) * beta_v % n2 ∧ (r2 - r1) * beta_v % n2 < n2 :=
    ⟨Int.emod_nonneg _ (by omega), Int.emod_lt_of_pos _ h2⟩
  have hy1 : y ≡ x ^ f.toNat [ZMOD n1] := by
    have hstep : y ≡ r1 [ZMOD n1] := by
      rw [Int.modEq_iff_dvd]
      exact ⟨-((r2 - r1) * beta_v % n2), by ring⟩
    exact hstep.trans hr1cong
  have hy2 : y ≡ x ^ f.toNat [ZMOD n2] := by
    have step1 : y ≡ (r2 - r1) * beta_v * n1 + r1 [ZMOD n2] :=
      Int.ModEq.add_right r1 (Int.ModEq.mul_right n1 (emod_modEq _ n2))
    have step2 : (r2 - r1) * beta_v * n1 + r1 ≡ (r2 - r1) * 1 + r1 [ZMOD n2] := by
      have : (r2 - r1) * beta_v * n1 = (r2 - r1) * (n1 * beta_v) := by ring
      rw [this]
      exact Int.ModEq.add_right r1 (Int.ModEq.mul_left _ hbeta)
    have step3 : (r2 - r1) * 1 + r1 = r2 := by ring
    rw [step3] at step2
    exact (step1.trans step2).trans hr2cong
  have hcon : Nat.Coprime n1.natAbs n2.natAbs := hco
  have hy : y ≡ x ^ f.toNat [ZMOD n1 * n2] :=
    (Int.modEq_and_modEq_iff_modEq_mul hcon).mp ⟨hy1, hy2⟩
  have hyb : 0 ≤ y ∧ y < n1 * n2 := by
    constructor
    · have := haux.1
      have := hr1b.1
      positivity
    · nlinarith [haux.1, haux.2, hr1b.1, hr1b.2]
  have hxfb : 0 ≤ x ^ f.toNat % (n1 * n2) ∧ x ^ f.toNat % (n1 * n2) < n1 * n2 :=
    ⟨Int.emod_nonneg _ (by positivity), Int.emod_lt_of_pos _ (by positivity)⟩
  exact int_eq_of_modEq (hy.trans (emod_modEq _ _).symm) hyb.1 hyb.2 hxfb.1 hxfb.2

/-- Correctness of `CrtExp::exp` with a prepared exponent: under the
invariants established by `CrtExp::build` (plus the Euler property of the
`phi` fields, which holds for the factorizations used by the library), the
CRT computation agrees exactly with ordinary modular exponentiation
`pow_mod` — for any sign of the exponent — on bases coprime to the
modulus. -/
theorem crt_exp_eq (crt : CrtExp) (hn : crt.n = crt.n1 * crt.n2)
    (h1 : 0 < crt.n1) (h2 : 0 < crt.n2)
    (hco : Int.gcd crt.n1 crt.n2 = 1)
    (hbeta : crt.n1 * crt.beta ≡ 1 [ZMOD crt.n2])
    (hphi1 : 0 < crt.phi_n1) (hphi2 : 0 < crt.phi_n2)
    (heuler1 : ∀ a : Int, Int.gcd a crt.n1 = 1 →
      a ^ crt.phi_n1.toNat ≡ 1 [ZMOD crt.n1])
    (heuler2 : ∀ a : Int, Int.gcd a crt.n2 = 1 →
      a ^ crt.phi_n2.toNat ≡ 1 [ZMOD crt.n2])
    (x : Int) (hx : Int.gcd x crt.n = 1) (e : Int) :
    crt.exp x (crt.prepare_exponent e) = pow_mod x e crt.n := by
  have hnpos : 0 < crt.n := by rw [hn]; positivity
  have hx' : Int.gcd x (crt.n1 * crt.n2) = 1 := by rwa [hn] at hx
  rcases le_or_lt 0 e with he | he
  · -- non-negative exponent: no inversion involved
    rw [prepare_exponent_of_nonneg crt he]
    unfold CrtExp.exp
    dsimp only
    rw [pow_mod_of_nonneg (by omega) (Int.emod_nonneg e (by omega)),
      pow_mod_of_nonneg (by omega) (Int.emod_nonneg e (by omega))]
    simp only []
    rw [pow_mod_of_nonneg (by omega) he]
    have hcore := crt_combine_eq h1 h2 hco hbeta hphi1 hphi2 heuler1 heuler2
      hx' he
    rw [hn, hcore]
    simp
  · -- negative exponent: CRT computes `x ^ |e|` and inverts the result
    rw [prepare_exponent_of_neg crt he]
    unfold CrtExp.exp
    dsimp only
    rw [pow_mod_of_nonneg (by omega) (Int.emod_nonneg (-e) (by omega)),
      pow_mod_of_nonneg (by omega) (Int.emod_nonneg (-e) (by omega))]
    simp only []
    rw [pow_mod_of_neg (by omega) he]
    have hcore := crt_combine_eq h1 h2 hco hbeta hphi1 hphi2 heuler1 heuler2
      hx' (by omega : (0:Int) ≤ -e)
    rw [hn, hcore, if_pos trivial]
    -- both sides invert the same residue class
    have hgx : Int.gcd (x ^ (-e).toNat) (crt.n1 * crt.n2) = 1 :=
      gcd_pow_left _ hx'
    have hgy : Int.gcd (x ^ (-e).toNat % (crt.n1 * crt.n2)) (crt.n1 * crt.n2) = 1 :=
      gcd_one_of_modEq (emod_modEq _ _) hgx
    have hnpos' : 0 < crt.n1 * crt.n2 := by positivity
    obtain ⟨t, ht⟩ := invert_isSome hnpos' hx'
    obtain ⟨ht0, htn, hxt⟩ := invert_some hnpos' ht
    rw [ht]
    have hw0 : 0 ≤ t ^ (-e).toNat % (crt.n1 * crt.n2) :=
      Int.emod_nonneg _ (by omega)
    have hwn : t ^ (-e).toNat % (crt.n1 * crt.n2) < crt.n1 * crt.n2 :=
      Int.emod_lt_of_pos _ hnpos'
    have hkey : (x ^ (-e).toNat % (crt.n1 * crt.n2)) *
        (t ^ (-e).toNat % (crt.n1 * crt.n2)) ≡ 1 [ZMOD crt.n1 * crt.n2] := by
      calc (x ^ (-e).toNat % (crt.n1 * crt.n2)) *
            (t ^ (-e).toNat % (crt.n1 * crt.n2))
          ≡ x ^ (-e).toNat * t ^ (-e).toNat [ZMOD crt.n1 * crt.n2] :=
            Int.ModEq.mul (emod_modEq _ _) (emod_modEq _ _)
        _ = (x * t) ^ (-e).toNat := by rw [mul_pow]
        _ ≡ 1 ^ (-e).toNat [ZMOD crt.n1 * crt.n2] := Int.ModEq.pow _ hxt
        _ = 1 := one_pow _
    rw [invert_eq hnpos' hw0 hwn hkey]
    rfl

/-! ## Unfolding lemmas for `build` and `from_primes` -/

/-- What a successful `CrtExp::build` guarantees. -/
theorem build_parts {a1 b1 a2 b2 : Int} {crt : CrtExp}
    (h : CrtExp.build a1 b1 a2 b2 = some crt) :
    crt.n = a1 * a2 ∧ crt.n1 = a1 ∧ crt.phi_n1 = b1 ∧ crt.n2 = a2 ∧
    crt.phi_n2 = b2 ∧ invert a1 a2 = some crt.beta ∧
    0 < a1 ∧ 0 < a2 ∧ 0 < b1 ∧ 0 < b2 ∧ b1 < a1 ∧ b2 < a2 := by
  unfold CrtExp.build at h
  by_cases hc : (a1 ≤ 0 || a2 ≤ 0 || b1 ≤ 0 || b2 ≤ 0 || b1 ≥ a1 || b2 ≥ a2 : Bool) = true
  · rw [if_pos hc] at h
    cases h
  · rw [if_neg hc] at h
    simp only [Bool.or_eq_true, decide_eq_true_eq, not_or] at hc
    rcases Option.map_eq_some'.mp h with ⟨bet, hinv, hcrt⟩
    subst hcrt
    refine ⟨rfl, rfl, rfl, rfl, rfl, hinv, ?_, ?_, ?_, ?_, ?_, ?_⟩ <;> omega

/-- What a successful `DecryptionKey::from_primes` guarantees. -/
theorem from_primes_parts {p q : Int} {dk : DecryptionKey}
    (h : DecryptionKey.from_primes p q = .ok dk) :
    p ≠ q ∧ dk.ek = EncryptionKey.from_n (p * q) ∧
    dk.lambda = ((Int.lcm (p - 1) (q - 1) : Nat) : Int) ∧ dk.lambda ≠ 0 ∧
    invert dk.lambda (p * q) = some dk.mu ∧
    CrtExp.build_nn p q = some dk.crt_mod_nn ∧
    dk.exp_n = dk.crt_mod_nn.prepare_exponent (p * q) ∧
    dk.exp_lambda = dk.crt_mod_nn.prepare_exponent dk.lambda ∧
    dk.p = p ∧ dk.q = q := by
  unfold DecryptionKey.from_primes at h
  by_cases hpq : p = q
  · rw [if_pos hpq] at h; cases h
  · rw [if_neg hpq] at h
    dsimp only at h
    by_cases hl : ((Int.lcm (p - 1) (q - 1) : Nat) : Int) = 0
    · rw [if_pos hl] at h; cases h
    · rw [if_neg hl] at h
      rcases hinv : invert ((Int.lcm (p - 1) (q - 1) : Nat) : Int)
          (EncryptionKey.from_n (p * q)).n with _ | u
      · rw [hinv] at h; cases h
      · rw [hinv] at h
        rcases hbuild : CrtExp.build_nn p q with _ | crt
        · rw [hbuild] at h; cases h
        · rw [hbuild] at h
          cases h
          dsimp only
          have hekn : (EncryptionKey.from_n (p * q)).n = p * q := rfl
          rw [hekn] at hinv
          exact ⟨hpq, rfl, rfl, hl, hinv, rfl, rfl, rfl, rfl, rfl⟩

/-! ## CRT equivalence for the factorizations used by the library -/

/-- For distinct primes `p`, `q`, a `CrtExp` built by `build_n` computes
ordinary modular exponentiation modulo `p * q` on coprime bases. -/
theorem crt_exp_build_n_eq {p q : Nat} (hp : p.Prime) (hq : q.Prime)
    (hpq : p ≠ q) {crt : CrtExp}
    (hb : CrtExp.build_n (p : Int) (q : Int) = some crt)
    {x : Int} (hx : Int.gcd x ((p : Int) * q) = 1) (e : Int) :
    crt.exp x (crt.prepare_exponent e) = pow_mod x e ((p : Int) * q) := by
  obtain ⟨hn, hn1, hphi1, hn2, hphi2, hinv, h1, h2, hb1, hb2, hlt1, hlt2⟩ :=
    build_parts hb
  have hcp : Nat.Coprime p q := (Nat.coprime_primes hp hq).mpr hpq
  have hbeta := (invert_some h2 hinv).2.2
  have heq := crt_exp_eq crt (by rw [hn, hn1, hn2])
    (by rw [hn1]; exact h1) (by rw [hn2]; exact h2)
    (by rw [hn1, hn2, Int.gcd_natCast_natCast]; exact hcp)
    (by rw [hn1, hn2]; exact hbeta)
    (by rw [hphi1]; exact hb1) (by rw [hphi2]; exact hb2)
    (by
      intro a ha
      rw [hn1] at ha
      rw [hphi1, hn1]
      exact euler_prime_int hp ha)
    (by
      intro a ha
      rw [hn2] at ha
      rw [hphi2, hn2]
      exact euler_prime_int hq ha)
    x (by rw [hn]; exact hx) e
  rw [heq, hn]

/-- For distinct primes `p`, `q`, a `CrtExp` built by `build_nn` computes
ordinary modular exponentiation modulo `(p * q)^2` on coprime bases. -/
theorem crt_exp_build_nn_eq {p q : Nat} (hp : p.Prime) (hq : q.Prime)
    (hpq : p ≠ q) {crt : CrtExp}
    (hb : CrtExp.build_nn (p : Int) (q : Int) = some crt)
    {x : Int} (hx : Int.gcd x (((p : Int) * q) * ((p : Int) * q)) = 1) (e : Int) :
    crt.exp x (crt.prepare_exponent e) =
      pow_mod x e (((p : Int) * q) * ((p : Int) * q)) := by
  obtain ⟨hn, hn1, hphi1, hn2, hphi2, hinv, h1, h2, hb1, hb2, hlt1, hlt2⟩ :=
    build_parts hb
  have hcp : Nat.Coprime p q := (Nat.coprime_primes hp hq).mpr hpq
  have hco : Int.gcd ((p : Int) * p) ((q : Int) * q) = 1 := by
    have hcast : ((p : Int) * p) = ((p * p : Nat) : Int) := by push_cast; ring
    have hcast2 : ((q : Int) * q) = ((q * q : Nat) : Int) := by push_cast; ring
    rw [hcast, hcast2, Int.gcd_natCast_natCast]
    exact Nat.Coprime.mul (hcp.mul_right hcp) (hcp.mul_right hcp)
  have hbeta := (invert_some h2 hinv).2.2
  have hmod : (((p : Int) * p) * ((q : Int) * q)) =
      (((p : Int) * q) * ((p : Int) * q)) := by ring
  have heq := crt_exp_eq crt (by rw [hn, hn1, hn2])
    (by rw [hn1]; exact h1) (by rw [hn2]; exact h2)
    (by rw [hn1, hn2]; exact hco)
    (by rw [hn1, hn2]; exact hbeta)
    (by rw [hphi1]; exact hb1) (by rw [hphi2]; exact hb2)
    (by
      intro a ha
      rw [hn1] at ha
      rw [hphi1, hn1]
      exact euler_prime_sq_int hp ha)
    (by
      intro a ha
      rw [hn2] at ha
      rw [hphi2, hn2]
      exact euler_prime_sq_int hq ha)
    x (by rw [hn, hmod]; exact hx) e
  rw [heq, hn, hmod]

/-! ## The Paillier canonical form `(1 + mN) * t^N` modulo `N^2` -/

/-- `Int.lcm` on coercions of naturals. -/
theorem int_lcm_natCast (a b : Nat) : Int.lcm (a : Int) (b : Int) = Nat.lcm a b := by
  unfold Int.lcm
  rw [Int.natAbs_ofNat, Int.natAbs_ofNat]

/-- Binomial congruence: `(1 + mN)^k ≡ 1 + k m N (mod N^2)`. -/
theorem one_add_mul_pow_modEq (N m : Int) (k : Nat) :
    (1 + m * N) ^ k ≡ 1 + ((k : Int) * m) * N [ZMOD N * N] := by
  induction k with
  | zero => simp
  | succ j ih =>
    calc (1 + m * N) ^ (j + 1)
        = (1 + m * N) ^ j * (1 + m * N) := pow_succ _ _
      _ ≡ (1 + ((j : Int) * m) * N) * (1 + m * N) [ZMOD N * N] :=
          ih.mul_right _
      _ ≡ 1 + (((j : Nat) + 1 : Int) * m) * N [ZMOD N * N] := by
          rw [Int.modEq_iff_dvd]
          exact ⟨-((j : Int) * m * m), by ring⟩
      _ = 1 + (((j + 1 : Nat) : Int) * m) * N := by push_cast; ring

/-- Powers of the canonical form `(1 + mN) * t^Nn`. -/
theorem canonical_pow (N m t : Int) (Nn : Nat) (k : Nat) :
    ((1 + m * N) * t ^ Nn) ^ k ≡
      (1 + ((k : Int) * m) * N) * (t ^ k) ^ Nn [ZMOD N * N] := by
  have h1 : ((1 + m * N) * t ^ Nn) ^ k = (1 + m * N) ^ k * (t ^ k) ^ Nn := by
    rw [mul_pow, ← pow_mul, ← pow_mul, mul_comm k Nn]
  rw [h1]
  exact (one_add_mul_pow_modEq N m k).mul_right _

/-- The inverse of a canonical form is again canonical, with `m` negated
and the unit inverted. -/
theorem canonical_inv {N u v m t s : Int} {Nn : Nat}
    (hN : 0 < N) (hu : u * v ≡ 1 [ZMOD N * N])
    (hcanon : u ≡ (1 + m * N) * t ^ Nn [ZMOD N * N])
    (hts : t * s ≡ 1 [ZMOD N * N]) :
    v ≡ (1 + (-m) * N) * s ^ Nn [ZMOD N * N] := by
  have hgcd : Int.gcd u (N * N) = 1 := gcd_one_of_mul_modEq_one hu
  have hprod : u * ((1 + (-m) * N) * s ^ Nn) ≡ 1 [ZMOD N * N] := by
    calc u * ((1 + (-m) * N) * s ^ Nn)
        ≡ ((1 + m * N) * t ^ Nn) * ((1 + (-m) * N) * s ^ Nn) [ZMOD N * N] :=
          hcanon.mul_right _
      _ = ((1 + m * N) * (1 + (-m) * N)) * (t * s) ^ Nn := by
          rw [mul_pow]; ring
      _ ≡ ((1 + m * N) * (1 + (-m) * N)) * 1 ^ Nn [ZMOD N * N] :=
          Int.ModEq.mul_left _ (Int.ModEq.pow _ hts)
      _ ≡ 1 [ZMOD N * N] := by
          rw [Int.modEq_iff_dvd]
          exact ⟨m * m, by ring⟩
  have := modEq_cancel_left (by positivity) hgcd (hu.trans hprod.symm)
  exact this

/-- The base `t^(pq·lam)` is `1` modulo `(pq)^2` whenever `t` is coprime to
`pq` and `lam` is divisible by `p - 1` and `q - 1` (for distinct primes
`p`, `q`).  This is the Euler/Carmichael fact behind Paillier decryption. -/
theorem pow_N_lambda_modEq_one {p q : Nat} (hp : p.Prime) (hq : q.Prime)
    (hpq : p ≠ q) {lam : Nat} (hl1 : (p - 1) ∣ lam) (hl2 : (q - 1) ∣ lam)
    {t : Int} (ht : Int.gcd t ((p : Int) * q) = 1) :
    t ^ (p * q * lam) ≡ 1 [ZMOD ((p : Int) * q) * ((p : Int) * q)] := by
  have hppos := hp.pos
  have hqpos := hq.pos
  have htp : Int.gcd t ((p : Int) * p) = 1 := by
    rw [Int.gcd_eq_one_iff_coprime] at ht ⊢
    exact ht.of_mul_right_left.mul_right ht.of_mul_right_left
  have htq : Int.gcd t ((q : Int) * q) = 1 := by
    rw [Int.gcd_eq_one_iff_coprime] at ht ⊢
    rw [mul_comm] at ht
    exact ht.of_mul_right_left.mul_right ht.of_mul_right_left
  -- exponent bookkeeping: (p*p - p) and (q*q - q) divide p*q*lam
  have hexp1 : ((p : Int) * p - p).toNat = p * p - p := by
    have : ((p : Int) * p - p) = ((p * p - p : Nat) : Int) := by
      push_cast [Nat.le_mul_of_pos_left p hppos]
      ring
    rw [this, Int.toNat_natCast]
  have hexp2 : ((q : Int) * q - q).toNat = q * q - q := by
    have : ((q : Int) * q - q) = ((q * q - q : Nat) : Int) := by
      push_cast [Nat.le_mul_of_pos_left q hqpos]
      ring
    rw [this, Int.toNat_natCast]
  obtain ⟨d1, hd1⟩ := hl1
  obtain ⟨d2, hd2⟩ := hl2
  have hdvd1 : p * q * lam = (p * p - p) * (q * d1) := by
    have : p * p - p = p * (p - 1) := (Nat.mul_sub_one p p).symm
    rw [this, hd1]
    ring
  have hdvd2 : p * q * lam = (q * q - q) * (p * d2) := by
    have : q * q - q = q * (q - 1) := (Nat.mul_sub_one q q).symm
    rw [this, hd2]
    ring
  have h1 : t ^ (p * q * lam) ≡ 1 [ZMOD (p : Int) * p] := by
    have he := euler_prime_sq_int hp htp
    rw [hexp1] at he
    calc t ^ (p * q * lam) = (t ^ (p * p - p)) ^ (q * d1) := by
          rw [← pow_mul, ← hdvd1]
      _ ≡ 1 ^ (q * d1) [ZMOD (p : Int) * p] := Int.ModEq.pow _ he
      _ = 1 := one_pow _
  have h2 : t ^ (p * q * lam) ≡ 1 [ZMOD (q : Int) * q] := by
    have he := euler_prime_sq_int hq htq
    rw [hexp2] at he
    calc t ^ (p * q * lam) = (t ^ (q * q - q)) ^ (p * d2) := by
          rw [← pow_mul, ← hdvd2]
      _ ≡ 1 ^ (p * d2) [ZMOD (q : Int) * q] := Int.ModEq.pow _ he
      _ = 1 := one_pow _
  have hcp : Nat.Coprime p q := (Nat.coprime_primes hp hq).mpr hpq
  have hco : Nat.Coprime ((p : Int) * p).natAbs ((q : Int) * q).natAbs := by
    have hcast : ((p : Int) * p) = ((p * p : Nat) : Int) := by push_cast; ring
    have hcast2 : ((q : Int) * q) = ((q * q : Nat) : Int) := by push_cast; ring
    rw [hcast, hcast2, Int.natAbs_ofNat, Int.natAbs_ofNat]
    exact Nat.Coprime.mul (hcp.mul_right hcp) (hcp.mul_right hcp)
  have hcomb := (Int.modEq_and_modEq_iff_modEq_mul hco).mp ⟨h1, h2⟩
  have hmod : ((p : Int) * p) * ((q : Int) * q) =
      ((p : Int) * q) * ((p : Int) * q) := by ring
  rwa [hmod] at hcomb

/-! ## Decryption of the canonical form -/

/-- Facts that hold for every key built by `from_primes` on primes. -/
theorem decrypt_canonical {p q : Nat} (hp : p.Prime) (hq : q.Prime)
    {dk : DecryptionKey}
    (hdk : DecryptionKey.from_primes (p : Int) (q : Int) = .ok dk)
    {m t c : Int} (ht : Int.gcd t ((p : Int) * q) = 1)
    (hc0 : 0 ≤ c)
    (hcong : c ≡ (1 + m * ((p : Int) * q)) * t ^ (p * q)
      [ZMOD ((p : Int) * q) * ((p : Int) * q)]) :
    dk.decrypt c = .ok (signed_residue m ((p : Int) * q)) := by
  obtain ⟨hpq', hek, hlam, hlne, hinv, hbuild, hexpn, hexplam, hdp, hdq⟩ :=
    from_primes_parts hdk
  have hpq : p ≠ q := fun h => hpq' (by exact_mod_cast h)
  have hppos := hp.pos
  have hqpos := hq.pos
  have hNpos : (0 : Int) < (p : Int) * q := by positivity
  have hN1 : (1 : Int) < (p : Int) * q := by
    have h2 : (2 : Nat) ≤ p := hp.two_le
    have h2' : (2 : Nat) ≤ q := hq.two_le
    have : (1 : Nat) < p * q := by nlinarith
    exact_mod_cast this
  have hekn : dk.ek.n = (p : Int) * q := by rw [hek]; rfl
  have heknn : dk.ek.nn = ((p : Int) * q) * ((p : Int) * q) := by rw [hek]; rfl
  -- lambda and mu
  have hlamcast : dk.lambda = ((Nat.lcm (p - 1) (q - 1) : Nat) : Int) := by
    rw [hlam]
    congr 1
    have hc1 : ((p : Int) - 1) = ((p - 1 : Nat) : Int) := by push_cast [hppos]; ring
    have hc2 : ((q : Int) - 1) = ((q - 1 : Nat) : Int) := by push_cast [hqpos]; ring
    rw [hc1, hc2, int_lcm_natCast]
  set lamN : Nat := Nat.lcm (p - 1) (q - 1) with hlamN
  have hlampos : 0 < lamN := by
    rcases Nat.eq_zero_or_pos lamN with h0 | h0
    · exfalso; apply hlne; rw [hlamcast, h0]; rfl
    · exact h0
  obtain ⟨hmu0, hmuN, hmul⟩ := invert_some hNpos hinv
  -- coprimality of the ciphertext with N^2
  have hcop1 : Int.gcd (1 + m * ((p : Int) * q))
      (((p : Int) * q) * ((p : Int) * q)) = 1 := by
    rw [Int.gcd_eq_one_iff_coprime]
    have hone : IsCoprime (1 : Int) ((p : Int) * q) := isCoprime_one_left
    have h1 : IsCoprime (1 + m * ((p : Int) * q)) ((p : Int) * q) :=
      IsCoprime.add_mul_right_left hone m
    exact h1.mul_right h1
  have hcopt : Int.gcd (t ^ (p * q)) (((p : Int) * q) * ((p : Int) * q)) = 1 := by
    rw [Int.gcd_eq_one_iff_coprime] at ht ⊢
    exact (ht.pow_left).mul_right (ht.pow_left)
  have hgcdc : Int.gcd c (((p : Int) * q) * ((p : Int) * q)) = 1 := by
    apply gcd_one_of_modEq hcong
    rw [Int.gcd_eq_one_iff_coprime] at hcop1 hcopt ⊢
    exact hcop1.mul_left hcopt
  -- the guard passes
  have hguard : in_mult_group c dk.ek.nn = true := by
    unfold in_mult_group
    rw [heknn]
    simp [hc0, hgcdc]
  -- the CRT exponentiation computes c^lambda mod N^2
  have hexp := crt_exp_build_nn_eq hp hq hpq hbuild hgcdc dk.lambda
  rw [← hexplam] at hexp
  have hlamnn : dk.lambda.toNat = lamN := by rw [hlamcast]; exact Int.toNat_natCast _
  have hNNpos0 : (0 : Int) < ((p : Int) * q) * ((p : Int) * q) := by positivity
  have hexpval : dk.crt_mod_nn.exp c dk.exp_lambda =
      some (c ^ lamN % (((p : Int) * q) * ((p : Int) * q))) := by
    rw [hexp, pow_mod_of_nonneg (ne_of_gt hNNpos0)
      (by rw [hlamcast]; exact Int.natCast_nonneg _), hlamnn]
  set NN : Int := ((p : Int) * q) * ((p : Int) * q) with hNN
  set aval : Int := c ^ lamN % NN with haval
  -- congruence satisfied by `a`
  have hacong : aval ≡ 1 + (((lamN : Int)) * m) * ((p : Int) * q) [ZMOD NN] := by
    have step1 : aval ≡ c ^ lamN [ZMOD NN] := emod_modEq _ _
    have step2 : c ^ lamN ≡ ((1 + m * ((p : Int) * q)) * t ^ (p * q)) ^ lamN
        [ZMOD NN] := Int.ModEq.pow _ hcong
    have step3 := canonical_pow ((p : Int) * q) m t (p * q) lamN
    have step4 : (t ^ lamN) ^ (p * q) ≡ 1 [ZMOD NN] := by
      have hd := pow_N_lambda_modEq_one hp hq hpq
        (Nat.dvd_lcm_left (p - 1) (q - 1)) (Nat.dvd_lcm_right (p - 1) (q - 1)) ht
      calc (t ^ lamN) ^ (p * q) = t ^ (p * q * lamN) := by
            rw [← pow_mul, mul_comm lamN (p * q)]
        _ ≡ 1 [ZMOD NN] := hd
    have step5 : (1 + ((lamN : Int) * m) * ((p : Int) * q)) * ((t ^ lamN) ^ (p * q))
        ≡ (1 + ((lamN : Int) * m) * ((p : Int) * q)) * 1 [ZMOD NN] :=
      Int.ModEq.mul_left _ step4
    calc aval ≡ c ^ lamN [ZMOD NN] := step1
      _ ≡ ((1 + m * ((p : Int) * q)) * t ^ (p * q)) ^ lamN [ZMOD NN] := step2
      _ ≡ (1 + ((lamN : Int) * m) * ((p : Int) * q)) * ((t ^ lamN) ^ (p * q))
          [ZMOD NN] := step3
      _ ≡ (1 + ((lamN : Int) * m) * ((p : Int) * q)) * 1 [ZMOD NN] := step5
      _ = 1 + ((lamN : Int) * m) * ((p : Int) * q) := mul_one _
  have hNNpos : (0 : Int) < NN := by rw [hNN]; positivity
  have ha0 : 0 ≤ aval := Int.emod_nonneg _ (by omega)
  have haNN : aval < NN := Int.emod_lt_of_pos _ hNNpos
  -- `a` is 1 modulo N
  have hamod : aval % ((p : Int) * q) = 1 := by
    have hdvd : ((p : Int) * q) ∣ NN := ⟨(p : Int) * q, rfl⟩
    have h1 : aval ≡ 1 + ((lamN : Int) * m) * ((p : Int) * q)
        [ZMOD (p : Int) * q] := hacong.of_dvd hdvd
    have h2 : (1 : Int) + ((lamN : Int) * m) * ((p : Int) * q) ≡ 1
        [ZMOD (p : Int) * q] := by
      rw [Int.modEq_iff_dvd]
      exact ⟨-((lamN : Int) * m), by ring⟩
    have h3 : aval ≡ 1 [ZMOD (p : Int) * q] := h1.trans h2
    unfold Int.ModEq at h3
    rw [show (1 : Int) % ((p : Int) * q) = 1 from
      Int.emod_eq_of_lt (by omega) hN1] at h3
    exact h3
  have hgcda : Int.gcd aval NN = 1 :=
    gcd_one_of_modEq (emod_modEq _ _) (gcd_pow_left lamN hgcdc)
  -- the `l` function succeeds
  have haval1 : 1 ≤ aval := by
    rcases lt_or_le aval 1 with h | h
    · exfalso
      have : aval = 0 := by omega
      rw [this] at hamod
      rw [Int.zero_emod] at hamod
      exact absurd hamod (by omega)
    · exact h
  have hltmod : aval.tmod dk.ek.n = 1 := by
    rw [hekn, Int.tmod_eq_emod ha0 (by omega), hamod]
  have hguarda : in_mult_group aval dk.ek.nn = true := by
    unfold in_mult_group
    rw [heknn]
    simp only [Bool.and_eq_true, decide_eq_true_eq, beq_iff_eq]
    exact ⟨ha0, hgcda⟩
  have hlval : dk.ek.l aval = some ((aval - 1).tdiv dk.ek.n) := by
    unfold EncryptionKey.l
    rw [if_neg (by rw [hltmod]; simp), if_neg (by rw [hguarda]; simp)]
  -- identify the quotient
  set kq : Int := aval / ((p : Int) * q) with hkq
  have hdecomp : aval = ((p : Int) * q) * kq + 1 := by
    have h5 := Int.ediv_add_emod aval ((p : Int) * q)
    rw [hamod] at h5
    linarith
  have hlval2 : (aval - 1).tdiv dk.ek.n = kq := by
    rw [hekn, Int.tdiv_eq_ediv (by omega) (by omega)]
    rw [show aval - 1 = ((p : Int) * q) * kq by omega]
    exact Int.mul_ediv_cancel_left kq (by omega)
  have hkq0 : 0 ≤ kq := Int.ediv_nonneg ha0 (le_of_lt hNpos)
  have hkqN : kq < (p : Int) * q := by
    rcases le_or_lt ((p : Int) * q) kq with h | h
    · exfalso
      have : ((p : Int) * q) * ((p : Int) * q) ≤ ((p : Int) * q) * kq :=
        mul_le_mul_of_nonneg_left h (le_of_lt hNpos)
      rw [hNN] at haNN
      omega
    · exact h
  -- kq ≡ lamN * m (mod N)
  have hkcong : kq ≡ (lamN : Int) * m [ZMOD (p : Int) * q] := by
    have h1 : ((p : Int) * q) * kq + 1 ≡ 1 + ((lamN : Int) * m) * ((p : Int) * q)
        [ZMOD NN] := by rw [← hdecomp]; exact hacong
    have h2 : NN ∣ (1 + ((lamN : Int) * m) * ((p : Int) * q)) -
        (((p : Int) * q) * kq + 1) := h1.dvd
    have h3 : ((p : Int) * q) * ((p : Int) * q) ∣
        ((p : Int) * q) * ((lamN : Int) * m - kq) := by
      rw [hNN] at h2
      have heq2 : (1 + ((lamN : Int) * m) * ((p : Int) * q)) -
          (((p : Int) * q) * kq + 1) = ((p : Int) * q) * ((lamN : Int) * m - kq) := by
        ring
      rwa [heq2] at h2
    have h4 : ((p : Int) * q) ∣ ((lamN : Int) * m - kq) :=
      (mul_dvd_mul_iff_left (by omega : ((p : Int) * q) ≠ 0)).mp h3
    rw [Int.modEq_iff_dvd]
    exact h4
  -- the plaintext residue
  have hptv : (kq * dk.mu).tmod dk.ek.n = (kq * dk.mu) % ((p : Int) * q) := by
    rw [hekn]
    exact Int.tmod_eq_emod (by positivity) (by omega)
  set ptv : Int := (kq * dk.mu) % ((p : Int) * q) with hptvdef
  have hptcong : ptv ≡ m [ZMOD (p : Int) * q] := by
    have s1 : ptv ≡ kq * dk.mu [ZMOD (p : Int) * q] := emod_modEq _ _
    have s2 : kq * dk.mu ≡ ((lamN : Int) * m) * dk.mu [ZMOD (p : Int) * q] :=
      Int.ModEq.mul_right _ hkcong
    have s3 : ((lamN : Int) * m) * dk.mu = m * (dk.lambda * dk.mu) := by
      rw [hlamcast]; ring
    have s4 : m * (dk.lambda * dk.mu) ≡ m * 1 [ZMOD (p : Int) * q] :=
      Int.ModEq.mul_left _ hmul
    calc ptv ≡ kq * dk.mu [ZMOD (p : Int) * q] := s1
      _ ≡ ((lamN : Int) * m) * dk.mu [ZMOD (p : Int) * q] := s2
      _ = m * (dk.lambda * dk.mu) := s3
      _ ≡ m * 1 [ZMOD (p : Int) * q] := s4
      _ = m := mul_one _
  have hptv_eq : ptv = m % ((p : Int) * q) := by
    apply int_eq_of_modEq (hptcong.trans (emod_modEq _ _).symm)
      (Int.emod_nonneg _ (by omega)) (Int.emod_lt_of_pos _ hNpos)
      (Int.emod_nonneg _ (by omega)) (Int.emod_lt_of_pos _ hNpos)
  -- put the pieces together
  unfold DecryptionKey.decrypt
  rw [if_neg (not_not_intro hguard), hexpval]
  dsimp only
  rw [hlval]
  dsimp only
  rw [hlval2, hptv]
  unfold signed_residue DecryptionKey.n
  rw [hekn, ← hptv_eq]
  dsimp only
  by_cases h : ptv * 2 ≥ (p : Int) * q
  · rw [if_pos h, if_pos h]
  · rw [if_neg h, if_neg h]

/-! ## Valid keys have odd primes, and the signed-residue mapping -/

/-- A key accepted by `from_primes` on two primes can only involve odd
primes: if `2 ∈ {p, q}` then `lambda` and `N` share the factor 2 and `mu`
cannot exist. -/
theorem valid_key_odd {p q : Nat} (hp : p.Prime) (hq : q.Prime)
    {dk : DecryptionKey}
    (hdk : DecryptionKey.from_primes (p : Int) (q : Int) = .ok dk) :
    Odd p ∧ Odd q := by
  obtain ⟨hpq', hek, hlam, hlne, hinv, hbuild, hexpn, hexplam, hdp, hdq⟩ :=
    from_primes_parts hdk
  have hpq : p ≠ q := fun h => hpq' (by exact_mod_cast h)
  have hppos := hp.pos
  have hqpos := hq.pos
  have hNpos : (0 : Int) < (p : Int) * q := by positivity
  obtain ⟨hmu0, hmuN, hmul⟩ := invert_some hNpos hinv
  have hg : Int.gcd dk.lambda ((p : Int) * q) = 1 := gcd_one_of_mul_modEq_one hmul
  have hlamcast : dk.lambda = ((Nat.lcm (p - 1) (q - 1) : Nat) : Int) := by
    rw [hlam]
    congr 1
    have hc1 : ((p : Int) - 1) = ((p - 1 : Nat) : Int) := by push_cast [hppos]; ring
    have hc2 : ((q : Int) - 1) = ((q - 1 : Nat) : Int) := by push_cast [hqpos]; ring
    rw [hc1, hc2, int_lcm_natCast]
  have hgnat : Nat.gcd (Nat.lcm (p - 1) (q - 1)) (p * q) = 1 := by
    have hstep : Int.gcd ((Nat.lcm (p - 1) (q - 1) : Nat) : Int)
        ((p * q : Nat) : Int) = 1 := by
      rw [← hlamcast]
      have hc : ((p * q : Nat) : Int) = (p : Int) * q := by push_cast; ring
      rw [hc]
      exact hg
    rwa [Int.gcd_natCast_natCast] at hstep
  have h2dvd : ∀ {r : Nat}, Odd r → 2 ∣ r - 1 := by
    rintro r ⟨k, hk⟩
    exact ⟨k, by omega⟩
  constructor
  · rcases hp.eq_two_or_odd' with hp2 | hodd
    · exfalso
      have hq2 : q ≠ 2 := by rw [hp2] at hpq; exact fun h => hpq h.symm
      have hoddq : Odd q := (hq.eq_two_or_odd').resolve_left hq2
      have d1 : 2 ∣ Nat.lcm (p - 1) (q - 1) :=
        dvd_trans (h2dvd hoddq) (Nat.dvd_lcm_right _ _)
      have d2 : 2 ∣ p * q := by rw [hp2]; exact Dvd.intro q rfl
      have hd := Nat.dvd_gcd d1 d2
      rw [hgnat] at hd
      omega
    · exact hodd
  · rcases hq.eq_two_or_odd' with hq2 | hodd
    · exfalso
      have hp2 : p ≠ 2 := by rw [hq2] at hpq; exact hpq
      have hoddp : Odd p := (hp.eq_two_or_odd').resolve_left hp2
      have d1 : 2 ∣ Nat.lcm (p - 1) (q - 1) :=
        dvd_trans (h2dvd hoddp) (Nat.dvd_lcm_left _ _)
      have d2 : 2 ∣ p * q := by rw [hq2]; exact ⟨p, by ring⟩
      have hd := Nat.dvd_gcd d1 d2
      rw [hgnat] at hd
      omega
    · exact hodd

/-- `signed_residue` only depends on the argument modulo `N`. -/
theorem signed_residue_congr {m1 m2 N : Int} (h : m1 ≡ m2 [ZMOD N]) :
    signed_residue m1 N = signed_residue m2 N := by
  unfold signed_residue
  unfold Int.ModEq at h
  rw [h]

/-- For odd positive `N`, `signed_residue` is the identity on the signed
range `{-N/2, .., N/2}` (equivalently `-N ≤ 2x ≤ N`). -/
theorem signed_residue_eq_self {x N : Int} (hN : 0 < N) (hodd : Odd N)
    (h1 : -N ≤ 2 * x) (h2 : 2 * x ≤ N) : signed_residue x N = x := by
  obtain ⟨k, hk⟩ := hodd
  unfold signed_residue
  dsimp only
  rcases le_or_lt 0 x with hx | hx
  · rw [Int.emod_eq_of_lt hx (by omega), if_neg (by omega)]
  · have hxn : x % N = x + N := by
      have hstep : (x + N * 1) % N = x % N := Int.add_mul_emod_self_left x N 1
      rw [mul_one] at hstep
      rw [← hstep]
      exact Int.emod_eq_of_lt (by omega) (by omega)
    rw [hxn, if_pos (by omega)]
    ring

/-! ## What `encrypt_with` computes -/

/-- `in_signed_group` on a key built by `from_n`, in arithmetic form. -/
theorem in_signed_group_from_n {N x : Int} (hN : 0 < N) :
    (EncryptionKey.from_n N).in_signed_group x = true ↔
      (-(N / 2) ≤ x ∧ x ≤ N / 2) := by
  unfold EncryptionKey.in_signed_group EncryptionKey.from_n
  dsimp only
  rw [Int.fdiv_eq_ediv _ (by norm_num)]
  simp

/-- Successful public encryption: the guard passes, and the ciphertext is
the expected product reduced modulo `N^2`. -/
theorem encrypt_with_spec {N x r : Int} (hN : 1 < N)
    (hsg : (EncryptionKey.from_n N).in_signed_group x = true)
    (hr0 : 0 ≤ r) (hrg : Int.gcd r N = 1) :
    (EncryptionKey.from_n N).encrypt_with x r =
      .ok ((1 + (if 0 ≤ x then x else x + N) * N) * (r ^ N.toNat % (N * N)) % (N * N)) ∧
    0 ≤ (1 + (if 0 ≤ x then x else x + N) * N) * (r ^ N.toNat % (N * N)) % (N * N) ∧
    (1 + (if 0 ≤ x then x else x + N) * N) * (r ^ N.toNat % (N * N)) % (N * N) ≡
      (1 + x * N) * r ^ N.toNat [ZMOD N * N] := by
  have hNN1 : (1 : Int) < N * N := by nlinarith
  have hxb := (in_signed_group_from_n (by omega)).mp hsg
  have hx' : 0 ≤ (if 0 ≤ x then x else x + N) ∧ (if 0 ≤ x then x else x + N) < N := by
    rcases le_or_lt 0 x with hx | hx
    · rw [if_pos hx]
      omega
    · rw [if_neg (by omega)]
      omega
  set x' : Int := if 0 ≤ x then x else x + N with hxeq
  have hprod : x' * N ≤ (N - 1) * N :=
    mul_le_mul_of_nonneg_right (by omega) (by omega)
  have ha : (1 + x' * N).tmod (N * N) = 1 + x' * N := by
    rw [Int.tmod_eq_emod (by nlinarith) (by omega)]
    apply Int.emod_eq_of_lt (by nlinarith)
    nlinarith
  have hcanon : (1 + x' * N) * (r ^ N.toNat % (N * N)) % (N * N) ≡
      (1 + x * N) * r ^ N.toNat [ZMOD N * N] := by
    have s1 : (1 + x' * N) * (r ^ N.toNat % (N * N)) % (N * N) ≡
        (1 + x' * N) * (r ^ N.toNat % (N * N)) [ZMOD N * N] := emod_modEq _ _
    have s2 : (1 + x' * N) * (r ^ N.toNat % (N * N)) ≡
        (1 + x' * N) * r ^ N.toNat [ZMOD N * N] :=
      Int.ModEq.mul_left _ (emod_modEq _ _)
    have s3 : (1 + x' * N) * r ^ N.toNat ≡ (1 + x * N) * r ^ N.toNat
        [ZMOD N * N] := by
      apply Int.ModEq.mul_right
      rw [Int.modEq_iff_dvd]
      rcases le_or_lt 0 x with hx | hx
      · rw [hxeq, if_pos hx]
        simp
      · rw [hxeq, if_neg (by omega)]
        exact ⟨-1, by ring⟩
    exact (s1.trans s2).trans s3
  refine ⟨?_, Int.emod_nonneg _ (by omega), hcanon⟩
  unfold EncryptionKey.encrypt_with
  rw [if_neg]
  · have heknn : (EncryptionKey.from_n N).nn = N * N := rfl
    have hekn : (EncryptionKey.from_n N).n = N := rfl
    rw [heknn, hekn,
      pow_mod_of_nonneg (by omega : (N * N : Int) ≠ 0) (by omega : (0:Int) ≤ N)]
    dsimp only
    rw [← hxeq, ha]
  · simp only [Bool.or_eq_true, decide_eq_true_eq, not_or, not_not]
    refine ⟨hsg, ?_⟩
    unfold in_mult_group
    have hekn2 : (EncryptionKey.from_n N).n = N := rfl
    rw [hekn2]
    simp [hr0, hrg]

/-! ## Claims -/

/-- C1: for every valid decryption key built by `from_primes(p, q)`, every
plaintext `x` with `-N/2 ≤ x ≤ N/2` and every nonce `r ∈ Z*_N`,
`decrypt(encrypt_with(x, r))` succeeds and returns exactly `x` (including
both inclusive endpoints of the signed range). -/
theorem C1_round_trip {p q : Nat} (hp : p.Prime) (hq : q.Prime)
    {dk : DecryptionKey}
    (hdk : DecryptionKey.from_primes (p : Int) (q : Int) = .ok dk)
    {x r : Int}
    (hx1 : -((p : Int) * q) ≤ 2 * x) (hx2 : 2 * x ≤ (p : Int) * q)
    (hr1 : 1 ≤ r) (hr2 : r < (p : Int) * q)
    (hrg : Int.gcd r ((p : Int) * q) = 1) :
    (dk.ek.encrypt_with x r).bind dk.decrypt = .ok x := by
  obtain ⟨hpq', hek, hlam, hlne, hinv, hbuild, hexpn, hexplam, hdp, hdq⟩ :=
    from_primes_parts hdk
  have hppos := hp.pos
  have hqpos := hq.pos
  obtain ⟨hop, hoq⟩ := valid_key_odd hp hq hdk
  have hoddN : Odd (p * q) := hop.mul hoq
  have hN1 : (1 : Int) < (p : Int) * q := by
    have h2 : (2 : Nat) ≤ p := hp.two_le
    have h2' : (2 : Nat) ≤ q := hq.two_le
    have hn : (1 : Nat) < p * q := by nlinarith
    exact_mod_cast hn
  have hNodd : ((p : Int) * q) % 2 = 1 := by
    obtain ⟨k, hk⟩ := hoddN
    have hcast : ((p : Int) * q) = ((p * q : Nat) : Int) := by push_cast; ring
    rw [hcast, hk]
    push_cast
    omega
  have hsg : (EncryptionKey.from_n ((p : Int) * q)).in_signed_group x = true := by
    rw [in_signed_group_from_n (by omega)]
    omega
  obtain ⟨henc, hc0, hcong⟩ := encrypt_with_spec hN1 hsg (by omega) hrg
  rw [hek, henc]
  show dk.decrypt _ = .ok x
  have hNt : ((p : Int) * q).toNat = p * q := by
    have hcast : ((p : Int) * q) = ((p * q : Nat) : Int) := by push_cast; ring
    rw [hcast, Int.toNat_natCast]
  rw [hNt] at hcong
  have hd := decrypt_canonical hp hq hdk hrg hc0 hcong
  rw [hd, signed_residue_eq_self (by omega) ⟨(((p : Int) * q) - 1) / 2, by omega⟩
    hx1 hx2]

/-- The decryption key for `p = 3`, `q = 5`, as computed by `from_primes`. -/
def dk35 : DecryptionKey :=
  ⟨⟨15, 225, 7, -7⟩, 4, 4, 3, 5, ⟨225, 9, 6, 25, 20, 14⟩, ⟨3, 15, false⟩,
   ⟨4, 4, false⟩⟩

/-- Witness for C1 at `p = 3`, `q = 5`, `x = 7 = ⌊N/2⌋`, `r = 2`. -/
theorem C1_round_trip_witness :
    DecryptionKey.from_primes ((3 : Nat) : Int) ((5 : Nat) : Int) = .ok dk35 ∧
    (dk35.ek.encrypt_with 7 2).bind dk35.decrypt = .ok 7 :=
  ⟨by decide,
   @C1_round_trip 3 5 (by norm_num) (by norm_num) dk35 (by decide) 7 2
     (by norm_num) (by norm_num) (by norm_num) (by norm_num) (by norm_num)⟩

/-- C4: for every valid decryption key, the fast (CRT) encryption path
computes exactly the same function as the public encryption path — the
same error on the same rejected inputs, and an identical ciphertext on
every accepted input. -/
theorem C4_encrypt_path_equiv {p q : Nat} (hp : p.Prime) (hq : q.Prime)
    {dk : DecryptionKey}
    (hdk : DecryptionKey.from_primes (p : Int) (q : Int) = .ok dk)
    (x r : Int) :
    dk.encrypt_with x r = dk.ek.encrypt_with x r := by
  obtain ⟨hpq', hek, hlam, hlne, hinv, hbuild, hexpn, hexplam, hdp, hdq⟩ :=
    from_primes_parts hdk
  have hpq : p ≠ q := fun h => hpq' (by exact_mod_cast h)
  have hppos := hp.pos
  have hqpos := hq.pos
  have hNpos : (0 : Int) < (p : Int) * q := by positivity
  have hNNpos : (0 : Int) < ((p : Int) * q) * ((p : Int) * q) := by positivity
  have hekn : (EncryptionKey.from_n ((p : Int) * q)).n = (p : Int) * q := rfl
  have heknn : (EncryptionKey.from_n ((p : Int) * q)).nn =
    ((p : Int) * q) * ((p : Int) * q) := rfl
  unfold DecryptionKey.encrypt_with EncryptionKey.encrypt_with DecryptionKey.n
  rw [hek]
  by_cases hsg : (EncryptionKey.from_n ((p : Int) * q)).in_signed_group x = true
  · by_cases hmg :
        in_mult_group r (EncryptionKey.from_n ((p : Int) * q)).n = true
    · have hguard : ¬((decide
          (¬(EncryptionKey.from_n ((p : Int) * q)).in_signed_group x = true) ||
          decide (¬in_mult_group r (EncryptionKey.from_n ((p : Int) * q)).n = true))
          = true) := by simp [hsg, hmg]
      rw [if_neg hguard, if_neg hguard]
      have hr0 : 0 ≤ r ∧ Int.gcd r ((p : Int) * q) = 1 := by
        unfold in_mult_group at hmg
        rw [hekn] at hmg
        simpa using hmg
      have hgcd : Int.gcd r (((p : Int) * q) * ((p : Int) * q)) = 1 := by
        have hco := hr0.2
        rw [Int.gcd_eq_one_iff_coprime] at hco ⊢
        exact hco.mul_right hco
      have hexpval : dk.crt_mod_nn.exp r dk.exp_n =
          pow_mod r ((p : Int) * q) (((p : Int) * q) * ((p : Int) * q)) := by
        rw [hexpn]
        exact crt_exp_build_nn_eq hp hq hpq hbuild hgcd _
      rw [hekn, heknn, hexpval,
        pow_mod_of_nonneg (by omega) (le_of_lt hNpos)]
      dsimp only
      have hb0 : 0 ≤ r ^ ((p : Int) * q).toNat %
          (((p : Int) * q) * ((p : Int) * q)) :=
        Int.emod_nonneg _ (by omega)
      have hx'0 : 0 ≤ (if 0 ≤ x then x else x + (p : Int) * q) := by
        have hxb := (in_signed_group_from_n hNpos).mp hsg
        rcases le_or_lt 0 x with hx | hx
        · rw [if_pos hx]; exact hx
        · rw [if_neg (not_le.mpr hx)]; omega
      have ha0 : 0 ≤ (1 + (if 0 ≤ x then x else x + (p : Int) * q) *
          ((p : Int) * q)).tmod (((p : Int) * q) * ((p : Int) * q)) := by
        rw [Int.tmod_eq_emod (by positivity) (by positivity)]
        exact Int.emod_nonneg _ (by omega)
      rw [Int.tmod_eq_emod (mul_nonneg ha0 hb0) (by positivity)]
    · have hguard : (decide
          (¬(EncryptionKey.from_n ((p : Int) * q)).in_signed_group x = true) ||
          decide (¬in_mult_group r (EncryptionKey.from_n ((p : Int) * q)).n = true))
          = true := by simp [hmg]
      rw [if_pos hguard, if_pos hguard]
  · have hguard : (decide
        (¬(EncryptionKey.from_n ((p : Int) * q)).in_signed_group x = true) ||
        decide (¬in_mult_group r (EncryptionKey.from_n ((p : Int) * q)).n = true))
        = true := by simp [hsg]
    rw [if_pos hguard, if_pos hguard]

/-- Witness for C4 at `p = 3`, `q = 5`, `x = 5`, `r = 4`. -/
theorem C4_encrypt_path_equiv_witness :
    DecryptionKey.from_primes ((3 : Nat) : Int) ((5 : Nat) : Int) = .ok dk35 ∧
    dk35.encrypt_with 5 4 = dk35.ek.encrypt_with 5 4 :=
  ⟨by decide,
   @C4_encrypt_path_equiv 3 5 (by norm_num) (by norm_num) dk35 (by decide) 5 4⟩

/-- A value congruent to a canonical form `(1 + mN) t^Nn` is coprime to
`N^2` when `t` is coprime to `N`. -/
theorem canonical_gcd {N m t c : Int} (ht : Int.gcd t N = 1) {Nn : Nat}
    (hcong : c ≡ (1 + m * N) * t ^ Nn [ZMOD N * N]) :
    Int.gcd c (N * N) = 1 := by
  have hone : IsCoprime (1 : Int) N := isCoprime_one_left
  have h1 : IsCoprime (1 + m * N) N := IsCoprime.add_mul_right_left hone m
  apply gcd_one_of_modEq hcong
  rw [Int.gcd_eq_one_iff_coprime] at ht ⊢
  exact IsCoprime.mul_left (h1.mul_right h1) ((ht.pow_left).mul_right (ht.pow_left))

/-- Both `omul` implementations return `pow_mod c a N²`; in particular they
agree. -/
theorem omul_paths_eq {p q : Nat} (hp : p.Prime) (hq : q.Prime)
    {dk : DecryptionKey}
    (hdk : DecryptionKey.from_primes (p : Int) (q : Int) = .ok dk)
    {a c : Int} (ha : Int.gcd a ((p : Int) * q) = 1) (hc0 : 0 ≤ c)
    (hgc : Int.gcd c (((p : Int) * q) * ((p : Int) * q)) = 1) :
    ∃ w, dk.ek.omul a c = .ok w ∧ dk.omul a c = .ok w ∧
      pow_mod c a (((p : Int) * q) * ((p : Int) * q)) = some w := by
  obtain ⟨hpq', hek, hlam, hlne, hinv, hbuild, hexpn, hexplam, hdp, hdq⟩ :=
    from_primes_parts hdk
  have hpq : p ≠ q := fun h => hpq' (by exact_mod_cast h)
  have hppos := hp.pos
  have hqpos := hq.pos
  have hNpos : (0 : Int) < (p : Int) * q := by positivity
  have hNNpos : (0 : Int) < ((p : Int) * q) * ((p : Int) * q) := by positivity
  have hekn : (EncryptionKey.from_n ((p : Int) * q)).n = (p : Int) * q := rfl
  have heknn : (EncryptionKey.from_n ((p : Int) * q)).nn =
    ((p : Int) * q) * ((p : Int) * q) := rfl
  -- `pow_mod` succeeds
  have hpm : ∃ w, pow_mod c a (((p : Int) * q) * ((p : Int) * q)) = some w := by
    rcases le_or_lt 0 a with hap | han
    · exact ⟨_, pow_mod_of_nonneg (by omega) hap⟩
    · obtain ⟨v, hv⟩ := invert_isSome hNNpos hgc
      refine ⟨v ^ (-a).toNat % (((p : Int) * q) * ((p : Int) * q)), ?_⟩
      rw [pow_mod_of_neg (by omega) han, hv]
      rfl
  obtain ⟨w, hw⟩ := hpm
  refine ⟨w, ?_, ?_, hw⟩
  · unfold EncryptionKey.omul
    rw [hek, hekn, heknn]
    rw [if_neg (by
      simp only [Bool.or_eq_true, decide_eq_true_eq, not_or, not_not]
      constructor
      · unfold in_mult_group_abs; simp [ha]
      · unfold in_mult_group; simp [hc0, hgc])]
    rw [hw]
  · unfold DecryptionKey.omul DecryptionKey.n
    rw [hek, hekn, heknn]
    rw [if_neg (by
      simp only [Bool.or_eq_true, decide_eq_true_eq, not_or, not_not]
      constructor
      · unfold in_mult_group_abs; simp [ha]
      · unfold in_mult_group; simp [hc0, hgc])]
    dsimp only
    rw [crt_exp_build_nn_eq hp hq hpq hbuild hgc a, hw]

/-- C2: for every valid key, scalar `a` coprime to `N` (any sign) and
ciphertext `Enc(b)` obtained from `encrypt_with`, decrypting
`omul(a, Enc(b))` yields `a·b` reduced into the signed range modulo `N` —
identically for the public (`EncryptionKey::omul`) and the fast
(`DecryptionKey::omul`) paths. -/
theorem C2_omul_decrypt {p q : Nat} (hp : p.Prime) (hq : q.Prime)
    {dk : DecryptionKey}
    (hdk : DecryptionKey.from_primes (p : Int) (q : Int) = .ok dk)
    {a : Int} (ha : Int.gcd a ((p : Int) * q) = 1)
    {b r c : Int}
    (hb1 : -((p : Int) * q) ≤ 2 * b) (hb2 : 2 * b ≤ (p : Int) * q)
    (hr1 : 1 ≤ r) (hr2 : r < (p : Int) * q)
    (hrg : Int.gcd r ((p : Int) * q) = 1)
    (hc : dk.ek.encrypt_with b r = .ok c) :
    (dk.ek.omul a c).bind dk.decrypt =
      .ok (signed_residue (a * b) ((p : Int) * q)) ∧
    (dk.omul a c).bind dk.decrypt =
      .ok (signed_residue (a * b) ((p : Int) * q)) := by
  obtain ⟨hpq', hek, hlam, hlne, hinv, hbuild, hexpn, hexplam, hdp, hdq⟩ :=
    from_primes_parts hdk
  have hpq : p ≠ q := fun h => hpq' (by exact_mod_cast h)
  have hppos := hp.pos
  have hqpos := hq.pos
  obtain ⟨hop, hoq⟩ := valid_key_odd hp hq hdk
  have hoddN : Odd (p * q) := hop.mul hoq
  have hN1 : (1 : Int) < (p : Int) * q := by
    have h2 : (2 : Nat) ≤ p := hp.two_le
    have h2' : (2 : Nat) ≤ q := hq.two_le
    have hn : (1 : Nat) < p * q := by nlinarith
    exact_mod_cast hn
  have hNpos : (0 : Int) < (p : Int) * q := by positivity
  have hNNpos : (0 : Int) < ((p : Int) * q) * ((p : Int) * q) := by positivity
  have hNodd : ((p : Int) * q) % 2 = 1 := by
    obtain ⟨k, hk⟩ := hoddN
    have hcast : ((p : Int) * q) = ((p * q : Nat) : Int) := by push_cast; ring
    rw [hcast, hk]
    push_cast
    omega
  have hsg : (EncryptionKey.from_n ((p : Int) * q)).in_signed_group b = true := by
    rw [in_signed_group_from_n (by omega)]
    omega
  obtain ⟨henc, hc0v, hcongv⟩ := encrypt_with_spec hN1 hsg (by omega) hrg
  rw [hek] at hc
  rw [hc] at henc
  have hcval := (Except.ok.injEq _ _).mp henc
  have hNt : ((p : Int) * q).toNat = p * q := by
    have hcast : ((p : Int) * q) = ((p * q : Nat) : Int) := by push_cast; ring
    rw [hcast, Int.toNat_natCast]
  have hc0 : 0 ≤ c := by rw [hcval]; exact hc0v
  have hcong : c ≡ (1 + b * ((p : Int) * q)) * r ^ (p * q)
      [ZMOD ((p : Int) * q) * ((p : Int) * q)] := by
    rw [hcval]
    rw [hNt] at hcongv
    exact hcongv
  have hgc : Int.gcd c (((p : Int) * q) * ((p : Int) * q)) = 1 :=
    canonical_gcd hrg hcong
  obtain ⟨w, hw1, hw2, hwpow⟩ := omul_paths_eq hp hq hdk ha hc0 hgc
  -- decrypt the result of `omul`
  have hdec : dk.decrypt w = .ok (signed_residue (a * b) ((p : Int) * q)) := by
    rcases le_or_lt 0 a with hap | han
    · -- non-negative scalar
      rw [pow_mod_of_nonneg (by omega) hap] at hwpow
      have hwval := (Option.some.injEq _ _).mp hwpow.symm
      have hw0 : 0 ≤ w := by
        rw [hwval]
        exact Int.emod_nonneg _ (by omega)
      have hwcong : w ≡ (1 + (a * b) * ((p : Int) * q)) * (r ^ a.toNat) ^ (p * q)
          [ZMOD ((p : Int) * q) * ((p : Int) * q)] := by
        have s1 : w ≡ c ^ a.toNat [ZMOD ((p : Int) * q) * ((p : Int) * q)] := by
          rw [hwval]
          exact emod_modEq _ _
        have s2 : c ^ a.toNat ≡ ((1 + b * ((p : Int) * q)) * r ^ (p * q)) ^ a.toNat
            [ZMOD ((p : Int) * q) * ((p : Int) * q)] := Int.ModEq.pow _ hcong
        have s3 := canonical_pow ((p : Int) * q) b r (p * q) a.toNat
        have hcast : ((a.toNat : Int)) = a := Int.toNat_of_nonneg hap
        rw [hcast] at s3
        have s4 : (a * b) * ((p : Int) * q) = (a * b) * ((p : Int) * q) := rfl
        calc w ≡ c ^ a.toNat [ZMOD ((p : Int) * q) * ((p : Int) * q)] := s1
          _ ≡ ((1 + b * ((p : Int) * q)) * r ^ (p * q)) ^ a.toNat
              [ZMOD ((p : Int) * q) * ((p : Int) * q)] := s2
          _ ≡ (1 + (a * b) * ((p : Int) * q)) * (r ^ a.toNat) ^ (p * q)
              [ZMOD ((p : Int) * q) * ((p : Int) * q)] := s3
      exact decrypt_canonical hp hq hdk (gcd_pow_left _ hrg) hw0 hwcong
    · -- negative scalar: the ciphertext is inverted first
      rw [pow_mod_of_neg (by omega) han] at hwpow
      obtain ⟨v, hv⟩ := invert_isSome hNNpos hgc
      rw [hv] at hwpow
      have hwval := (Option.some.injEq _ _).mp hwpow.symm
      obtain ⟨hv0, hvNN, hcv⟩ := invert_some hNNpos hv
      obtain ⟨s, hs⟩ := invert_isSome hNNpos
        (by rw [Int.gcd_eq_one_iff_coprime] at hrg ⊢; exact hrg.mul_right hrg)
      obtain ⟨hs0, hsNN, hrs⟩ := invert_some hNNpos hs
      have hvcanon := canonical_inv hNpos hcv hcong hrs
      have hw0 : 0 ≤ w := by
        rw [hwval]
        exact Int.emod_nonneg _ (by omega)
      have hwcong : w ≡ (1 + (a * b) * ((p : Int) * q)) * (s ^ (-a).toNat) ^ (p * q)
          [ZMOD ((p : Int) * q) * ((p : Int) * q)] := by
        have s1 : w ≡ v ^ (-a).toNat [ZMOD ((p : Int) * q) * ((p : Int) * q)] := by
          rw [hwval]
          exact emod_modEq _ _
        have s2 : v ^ (-a).toNat ≡
            ((1 + (-b) * ((p : Int) * q)) * s ^ (p * q)) ^ (-a).toNat
            [ZMOD ((p : Int) * q) * ((p : Int) * q)] := Int.ModEq.pow _ hvcanon
        have s3 := canonical_pow ((p : Int) * q) (-b) s (p * q) (-a).toNat
        have hcast : (((-a).toNat : Int)) = -a := Int.toNat_of_nonneg (by omega)
        rw [hcast] at s3
        have heq : (-a) * (-b) = a * b := by ring
        rw [heq] at s3
        calc w ≡ v ^ (-a).toNat [ZMOD ((p : Int) * q) * ((p : Int) * q)] := s1
          _ ≡ ((1 + (-b) * ((p : Int) * q)) * s ^ (p * q)) ^ (-a).toNat
              [ZMOD ((p : Int) * q) * ((p : Int) * q)] := s2
          _ ≡ (1 + (a * b) * ((p : Int) * q)) * (s ^ (-a).toNat) ^ (p * q)
              [ZMOD ((p : Int) * q) * ((p : Int) * q)] := s3
      have hsgcd : Int.gcd s ((p : Int) * q) = 1 := by
        have hmod : r * s ≡ 1 [ZMOD (p : Int) * q] :=
          hrs.of_dvd ⟨(p : Int) * q, rfl⟩
        rw [show r * s = s * r from mul_comm r s] at hmod
        exact gcd_one_of_mul_modEq_one hmod
      exact decrypt_canonical hp hq hdk (gcd_pow_left _ hsgcd) hw0 hwcong
  constructor
  · rw [hw1]; exact hdec
  · rw [hw2]; exact hdec

/-- Witness for C2 at `p = 3`, `q = 5`, scalar `a = -2`, plaintext `b = 3`,
nonce `r = 2` (ciphertext `Enc(3) = 53`). -/
theorem C2_omul_decrypt_witness :
    DecryptionKey.from_primes ((3 : Nat) : Int) ((5 : Nat) : Int) = .ok dk35 ∧
    ((dk35.ek.omul (-2) 53).bind dk35.decrypt =
      .ok (signed_residue ((-2) * 3) (((3 : Nat) : Int) * ((5 : Nat) : Int))) ∧
     (dk35.omul (-2) 53).bind dk35.decrypt =
      .ok (signed_residue ((-2) * 3) (((3 : Nat) : Int) * ((5 : Nat) : Int)))) :=
  ⟨by decide,
   @C2_omul_decrypt 3 5 (by norm_num) (by norm_num) dk35 (by decide) (-2)
     (by decide) 3 2 53 (by norm_num) (by norm_num) (by norm_num) (by norm_num)
     (by decide) (by decide)⟩

/-- C3 as stated is false: for `CrtExp.build_n(3, 5)` (modulus `n = 15`),
the base `x = 3 ∈ [0, n)` and the positive exponent `e = 2` (for which
`x^e mod n` is defined and equals 9), the CRT computation returns 4. -/
theorem C3_crt_equivalence_counterexample :
    (CrtExp.build_n ((3 : Nat) : Int) ((5 : Nat) : Int)).bind
      (fun crt => crt.exp 3 (crt.prepare_exponent 2)) = some 4 ∧
    pow_mod 3 2 (((3 : Nat) : Int) * ((5 : Nat) : Int)) = some 9 ∧
    (0 : Int) ≤ 3 ∧ (3 : Int) < ((3 : Nat) : Int) * ((5 : Nat) : Int) ∧
    (4 : Int) ≠ 9 := by decide

/-- C3 (amended): for a `CrtExp` built by `build_n(p, q)` or `build_nn(p, q)`
on distinct primes, any `x ∈ [0, n)` **coprime to `n`**, and any exponent
`e` of either sign, `CrtExp.exp(x, prepare_exponent(e))` equals ordinary
modular exponentiation `x^e mod n` (with negative `e` meaning the modular
inverse of `x^|e|`). -/
theorem C3_crt_equivalence {p q : Nat} (hp : p.Prime) (hq : q.Prime)
    (hpq : p ≠ q) {x : Int} (hx0 : 0 ≤ x) (e : Int)
    (hgcd : Int.gcd x ((p : Int) * q) = 1) :
    (∀ crt, CrtExp.build_n (p : Int) (q : Int) = some crt →
      x < (p : Int) * q →
      crt.exp x (crt.prepare_exponent e) = pow_mod x e ((p : Int) * q)) ∧
    (∀ crt, CrtExp.build_nn (p : Int) (q : Int) = some crt →
      x < ((p : Int) * q) * ((p : Int) * q) →
      crt.exp x (crt.prepare_exponent e) =
        pow_mod x e (((p : Int) * q) * ((p : Int) * q))) := by
  constructor
  · intro crt hb _
    exact crt_exp_build_n_eq hp hq hpq hb hgcd e
  · intro crt hb _
    have hgcd2 : Int.gcd x (((p : Int) * q) * ((p : Int) * q)) = 1 := by
      rw [Int.gcd_eq_one_iff_coprime] at hgcd ⊢
      exact hgcd.mul_right hgcd
    exact crt_exp_build_nn_eq hp hq hpq hb hgcd2 e

/-- The `CrtExp` built by `build_nn(3, 5)`. -/
def crt35nn : CrtExp :=
  ⟨225, 9, 6, 25, 20, 14⟩

/-- Witness for the amended C3 at `p = 3`, `q = 5`, `x = 13`, `e = -7`. -/
theorem C3_crt_equivalence_witness :
    CrtExp.build_nn ((3 : Nat) : Int) ((5 : Nat) : Int) = some crt35nn ∧
    crt35nn.exp 13 (crt35nn.prepare_exponent (-7)) =
      pow_mod 13 (-7)
        ((((3 : Nat) : Int) * ((5 : Nat) : Int)) *
         (((3 : Nat) : Int) * ((5 : Nat) : Int))) :=
  ⟨by decide,
   (@C3_crt_equivalence 3 5 (by norm_num) (by norm_num) (by norm_num) 13
     (by norm_num) (-7) (by decide)).2 crt35nn (by decide) (by decide)⟩

/-- Postcondition of the sieve loop: any returned value is `2x + 1` for a
candidate `x` of exactly `bits - 1` bits that passed the primality oracle,
and passed it again as `2x + 1`. -/
theorem sieve_generate_safe_primes_post {isPrime : Nat → Bool}
    {bits amount : Nat} (hbits : 2 ≤ bits) :
    ∀ (draws : List Nat) (qv : Nat),
      sieve_generate_safe_primes isPrime bits amount draws = some qv →
      2 ^ (bits - 1) ≤ qv ∧ qv < 2 ^ bits ∧ isPrime qv = true ∧
      isPrime ((qv - 1) / 2) = true := by
  intro draws
  induction draws with
  | nil =>
    intro qv h
    simp [sieve_generate_safe_primes] at h
  | cons d rest ih =>
    intro qv h
    unfold sieve_generate_safe_primes at h
    dsimp only at h
    by_cases hs : ((SMALL_PRIMES.take amount).any fun s =>
        sieve_test ((d % 2 ^ (bits - 1) ||| 2 ^ (bits - 2)) ||| 1) s) = true
    · rw [if_pos hs] at h
      exact ih qv h
    · rw [if_neg hs] at h
      by_cases hpr1 :
          isPrime ((d % 2 ^ (bits - 1) ||| 2 ^ (bits - 2)) ||| 1) = true
      · rw [if_pos hpr1] at h
        by_cases hpr2 :
            isPrime (2 * ((d % 2 ^ (bits - 1) ||| 2 ^ (bits - 2)) ||| 1) + 1) = true
        · rw [if_pos hpr2] at h
          have hqv : qv = 2 * ((d % 2 ^ (bits - 1) ||| 2 ^ (bits - 2)) ||| 1) + 1 :=
            ((Option.some.injEq _ _).mp h).symm
          set x : Nat := (d % 2 ^ (bits - 1) ||| 2 ^ (bits - 2)) ||| 1 with hx
          have hx0lt : d % 2 ^ (bits - 1) < 2 ^ (bits - 1) :=
            Nat.mod_lt _ (by positivity)
          have hplt : 2 ^ (bits - 2) < 2 ^ (bits - 1) :=
            Nat.pow_lt_pow_right (by norm_num) (by omega)
          have h1lt : 1 < 2 ^ (bits - 1) := by
            calc 1 < 2 ^ 1 := by norm_num
              _ ≤ 2 ^ (bits - 1) := Nat.pow_le_pow_right (by norm_num) (by omega)
          have hxlt : x < 2 ^ (bits - 1) :=
            Nat.or_lt_two_pow (Nat.or_lt_two_pow hx0lt hplt) h1lt
          have hxge : 2 ^ (bits - 2) ≤ x := by
            apply Nat.testBit_implies_ge
            rw [hx]
            simp [Nat.testBit_lor, Nat.testBit_two_pow_self]
          have hpow : 2 ^ (bits - 1) = 2 ^ (bits - 2) * 2 := by
            rw [← pow_succ]
            congr 1
            omega
          have hpow2 : 2 ^ bits = 2 ^ (bits - 1) * 2 := by
            rw [← pow_succ]
            congr 1
            omega
          refine ⟨by omega, by omega, ?_, ?_⟩
          · rw [hqv]
            exact hpr2
          · have hdiv : (qv - 1) / 2 = x := by omega
            rw [hdiv]
            exact hpr1
        · rw [if_neg hpr2] at h
          exact ih qv h
      · rw [if_neg hpr1] at h
        exact ih qv h

/-- C5: whenever `generate_safe_prime(rng, bits)` returns a value `q`, it
has exactly `bits` significant bits (`2^(bits-1) ≤ q < 2^bits`), it passes
the 25-round Miller-Rabin test (modelled by the `isPrime` oracle), and so
does `(q - 1) / 2`. -/
theorem C5_generate_safe_prime {isPrime : Nat → Bool} {draws : List Nat}
    {bits : Nat} (hbits : 2 ≤ bits) {qv : Nat}
    (h : generate_safe_prime isPrime draws bits = some qv) :
    2 ^ (bits - 1) ≤ qv ∧ qv < 2 ^ bits ∧ isPrime qv = true ∧
    isPrime ((qv - 1) / 2) = true :=
  sieve_generate_safe_primes_post hbits draws qv h

/-- Witness for C5: a run with `bits = 10` drawing the candidate 509
returns the safe prime `1019 = 2·509 + 1`. -/
theorem C5_generate_safe_prime_witness :
    (2 ≤ 10 ∧
      generate_safe_prime (fun n => n == 509 || n == 1019) [509] 10 = some 1019) ∧
    2 ^ 9 ≤ 1019 ∧ 1019 < 2 ^ 10 ∧
    (fun n => n == 509 || n == 1019) 1019 = true ∧
    (fun n => n == 509 || n == 1019) ((1019 - 1) / 2) = true :=
  ⟨⟨by norm_num, by decide⟩,
   @C5_generate_safe_prime (fun n => n == 509 || n == 1019) [509] 10
     (by norm_num) 1019 (by decide)⟩

/-- C6 as stated is false: the code never checks `r < N`.  For `N = 15`
the nonce `r = 16 ≥ N` (coprime to `N`) is accepted: encryption succeeds. -/
theorem C6_encrypt_reject_counterexample :
    ((EncryptionKey.from_n 15).encrypt_with 0 16).isOk = true ∧
    (15 : Int) ≤ 16 := by decide

/-- C6 (amended): `encrypt_with(x, r)` on a key `from_n(N)` (`N > 0`)
returns an error **iff** `x ∉ [-⌊N/2⌋, ⌊N/2⌋]`, or `r < 0`, or
`gcd(r, N) ≠ 1`.  There is no upper bound check on the nonce: any
`r ≥ N` coprime to `N` is accepted. -/
theorem C6_encrypt_error_iff {N : Int} (hN : 0 < N) (x r : Int) :
    ((EncryptionKey.from_n N).encrypt_with x r).isOk = false ↔
      (x < -(N / 2) ∨ N / 2 < x ∨ r < 0 ∨ Int.gcd r N ≠ 1) := by
  have hekn : (EncryptionKey.from_n N).n = N := rfl
  have heknn : (EncryptionKey.from_n N).nn = N * N := rfl
  unfold EncryptionKey.encrypt_with
  by_cases hsg : (EncryptionKey.from_n N).in_signed_group x = true
  · by_cases hmg : in_mult_group r (EncryptionKey.from_n N).n = true
    · rw [if_neg (by simp [hsg, hmg])]
      rw [hekn, heknn,
        pow_mod_of_nonneg (ne_of_gt (mul_pos hN hN)) (le_of_lt hN)]
      dsimp only
      simp only [Except.isOk]
      constructor
      · intro hfalse
        cases hfalse
      · intro hrhs
        exfalso
        have hx := (in_signed_group_from_n hN).mp hsg
        have hr : 0 ≤ r ∧ Int.gcd r N = 1 := by
          unfold in_mult_group at hmg
          rw [hekn] at hmg
          simpa using hmg
        rcases hrhs with h | h | h | h
        · omega
        · omega
        · omega
        · exact h hr.2
    · rw [if_pos (by simp [hmg])]
      simp only [Except.isOk]
      constructor
      · intro _
        unfold in_mult_group at hmg
        rw [hekn] at hmg
        right; right
        by_cases hr0 : 0 ≤ r
        · right
          intro hg
          exact hmg (by simp [hr0, hg])
        · left; omega
      · intro _; rfl
  · rw [if_pos (by simp [hsg])]
    simp only [Except.isOk]
    constructor
    · intro _
      have hx : ¬(-(N / 2) ≤ x ∧ x ≤ N / 2) := fun hc =>
        hsg ((in_signed_group_from_n hN).mpr hc)
      by_cases h1 : -(N / 2) ≤ x
      · right; left
        by_cases h2 : x ≤ N / 2
        · exact absurd ⟨h1, h2⟩ hx
        · omega
      · left; omega
    · intro _; rfl

/-- Witness for the amended C6 at `N = 15`, `x = 0`, `r = 16`. -/
theorem C6_encrypt_error_iff_witness :
    (0 : Int) < 15 ∧
    (((EncryptionKey.from_n 15).encrypt_with 0 16).isOk = false ↔
      ((0 : Int) < -(15 / 2) ∨ (15 : Int) / 2 < 0 ∨ (16 : Int) < 0 ∨
        Int.gcd 16 15 ≠ 1)) :=
  ⟨by norm_num, @C6_encrypt_error_iff 15 (by norm_num) 0 16⟩

/-- C7 as stated is false in its second half: `from_primes(3, 5)` succeeds,
because `lambda = lcm(2, 4) = 4` *is* invertible modulo `N = 15`
(`mu = 4`). -/
theorem C7_from_primes_counterexample :
    (DecryptionKey.from_primes 3 5).isOk = true ∧ invert 4 15 = some 4 := by
  decide

/-- C7 (amended): `from_primes(p, p)` returns the `InvalidPQ` error for
every `p`; but `from_primes(3, 5)` succeeds (the inverse
`mu = lambda⁻¹ mod N` exists for that pair). -/
theorem C7_from_primes_equal_rejected (p : Int) :
    DecryptionKey.from_primes p p = .error .InvalidPQ ∧
    (DecryptionKey.from_primes 3 5).isOk = true := by
  constructor
  · unfold DecryptionKey.from_primes
    rw [if_pos rfl]
  · decide

/-- A successful `pow_mod` always returns a non-negative value. -/
theorem pow_mod_some_nonneg {x e m y : Int} (h : pow_mod x e m = some y) :
    0 ≤ y := by
  unfold pow_mod at h
  by_cases hm : m = 0
  · rw [if_pos hm] at h
    cases h
  · rw [if_neg hm] at h
    rcases le_or_lt 0 e with he | he
    · rw [if_pos he] at h
      have hy := (Option.some.injEq _ _).mp h
      rw [← hy]
      exact Int.emod_nonneg _ hm
    · rw [if_neg (by omega)] at h
      rcases hv : invert x m with _ | v
      · rw [hv] at h
        cases h
      · rw [hv] at h
        have hy := (Option.some.injEq _ _).mp h
        rw [← hy]
        exact Int.emod_nonneg _ hm

/-- The CRT combination of a non-inverting exponent is non-negative. -/
theorem crt_exp_nonneg {crt : CrtExp} (h1 : 0 < crt.n1) (h2 : 0 < crt.n2)
    {x : Int} {e : Exponent} (hneg : e.is_negative = false) {y : Int}
    (h : crt.exp x e = some y) : 0 ≤ y := by
  unfold CrtExp.exp at h
  dsimp only at h
  rcases hr1 : pow_mod (x % crt.n1) e.e_mod_phi_pp crt.n1 with _ | r1
  · rw [hr1] at h
    cases h
  · rcases hr2 : pow_mod (x % crt.n2) e.e_mod_phi_qq crt.n2 with _ | r2
    · rw [hr1, hr2] at h
      cases h
    · rw [hr1, hr2] at h
      dsimp only at h
      rw [hneg] at h
      rw [if_neg (by simp)] at h
      have hy := (Option.some.injEq _ _).mp h
      rw [← hy]
      have ha : 0 ≤ (r2 - r1) * crt.beta % crt.n2 := Int.emod_nonneg _ (by omega)
      have hb : 0 ≤ r1 := pow_mod_some_nonneg hr1
      positivity

/-- C8: whenever `decrypt` succeeds on a key built by `from_primes`, its
result is the image of an intermediate residue `m' ∈ [0, N)` under the map
`m' ↦ if 2m' ≥ N then m' - N else m'`, and therefore lies in the half-open
signed range `[-N/2, N/2)`. -/
theorem C8_decrypt_signed_range {p q : Int} {dk : DecryptionKey}
    (hdk : DecryptionKey.from_primes p q = .ok dk)
    {c res : Int} (hres : dk.decrypt c = .ok res) :
    (∃ m', 0 ≤ m' ∧ m' < dk.ek.n ∧
      res = (if m' * 2 ≥ dk.ek.n then m' - dk.ek.n else m')) ∧
    -dk.ek.n ≤ 2 * res ∧ 2 * res < dk.ek.n := by
  obtain ⟨hpq', hek, hlam, hlne, hinv, hbuild, hexpn, hexplam, hdp, hdq⟩ :=
    from_primes_parts hdk
  obtain ⟨hn, hn1, hphi1, hn2, hphi2, hbinv, h1, h2, hb1, hb2, hlt1, hlt2⟩ :=
    build_parts hbuild
  -- the factors are at least 2, so N > 1
  have hp2 : 2 ≤ p := by nlinarith
  have hq2 : 2 ≤ q := by nlinarith
  have hekn : dk.ek.n = p * q := by rw [hek]; rfl
  have hN1 : 1 < p * q := by nlinarith
  have hNpos : (0 : Int) < p * q := by omega
  obtain ⟨hmu0, hmuN, hmul⟩ := invert_some hNpos hinv
  -- lambda is a positive natural number, so the prepared exponent does not
  -- invert
  have hlamneg : dk.exp_lambda.is_negative = false := by
    rw [hexplam]
    have hlpos : 0 ≤ dk.lambda := by rw [hlam]; exact Int.natCast_nonneg _
    rw [prepare_exponent_of_nonneg _ hlpos]
  unfold DecryptionKey.decrypt at hres
  by_cases hg : in_mult_group c dk.ek.nn = true
  · rw [if_neg (not_not_intro hg)] at hres
    rcases hexp : dk.crt_mod_nn.exp c dk.exp_lambda with _ | aval
    · rw [hexp] at hres
      cases hres
    · rw [hexp] at hres
      dsimp only at hres
      have ha0 : 0 ≤ aval :=
        crt_exp_nonneg (by omega) (by omega) hlamneg hexp
      rcases hl : dk.ek.l aval with _ | lval
      · rw [hl] at hres
        cases hres
      · rw [hl] at hres
        dsimp only at hres
        -- the `l` guard forces `aval.tmod N = 1` and gives the quotient
        have hlparts : aval.tmod dk.ek.n = 1 ∧
            lval = (aval - 1).tdiv dk.ek.n := by
          unfold EncryptionKey.l at hl
          by_cases ht : aval.tmod dk.ek.n = 1
          · rw [if_neg (not_not_intro ht)] at hl
            by_cases hm : in_mult_group aval dk.ek.nn = true
            · rw [if_neg (not_not_intro hm)] at hl
              exact ⟨ht, ((Option.some.injEq _ _).mp hl).symm⟩
            · rw [if_pos hm] at hl
              cases hl
          · rw [if_pos ht] at hl
            cases hl
        have haval1 : 1 ≤ aval := by
          rcases lt_or_le aval 1 with hlt | hle
          · exfalso
            have hz : aval = 0 := by omega
            have := hlparts.1
            rw [hz, hekn] at this
            rw [Int.tmod_eq_emod (by omega) (by omega), Int.zero_emod] at this
            omega
          · exact hle
        have hl0 : 0 ≤ lval := by
          rw [hlparts.2, hekn, Int.tdiv_eq_ediv (by omega) (by omega)]
          exact Int.ediv_nonneg (by omega) (by omega)
        set ptv : Int := (lval * dk.mu).tmod dk.ek.n with hptv
        have hptv_emod : ptv = (lval * dk.mu) % (p * q) := by
          rw [hptv, hekn]
          exact Int.tmod_eq_emod (by positivity) (by omega)
        have hpt0 : 0 ≤ ptv := by
          rw [hptv_emod]
          exact Int.emod_nonneg _ (by omega)
        have hptN : ptv < dk.ek.n := by
          rw [hptv_emod, hekn]
          exact Int.emod_lt_of_pos _ (by omega)
        refine ⟨⟨ptv, hpt0, hptN, ?_⟩, ?_⟩
        · -- identify the returned value with the mapped residue
          unfold DecryptionKey.n at hres
          by_cases hge : ptv * 2 ≥ dk.ek.n
          · rw [if_pos hge] at hres
            rw [if_pos hge]
            exact ((Except.ok.injEq _ _).mp hres).symm
          · rw [if_neg hge] at hres
            rw [if_neg hge]
            exact ((Except.ok.injEq _ _).mp hres).symm
        · -- range bound
          unfold DecryptionKey.n at hres
          by_cases hge : ptv * 2 ≥ dk.ek.n
          · rw [if_pos hge] at hres
            have hr := ((Except.ok.injEq _ _).mp hres).symm
            omega
          · rw [if_neg hge] at hres
            have hr := ((Except.ok.injEq _ _).mp hres).symm
            omega
  · rw [if_pos hg] at hres
    cases hres

/-- Witness for C8 at `p = 3`, `q = 5`, ciphertext `c = 2`
(which decrypts to 4). -/
theorem C8_decrypt_signed_range_witness :
    (DecryptionKey.from_primes 3 5 = .ok dk35 ∧ dk35.decrypt 2 = .ok 4) ∧
    (∃ m', 0 ≤ m' ∧ m' < dk35.ek.n ∧
      (4 : Int) = (if m' * 2 ≥ dk35.ek.n then m' - dk35.ek.n else m')) ∧
    -dk35.ek.n ≤ 2 * 4 ∧ 2 * 4 < dk35.ek.n :=
  ⟨⟨by decide, by decide⟩,
   @C8_decrypt_signed_range 3 5 dk35 (by decide) 2 4 (by decide)⟩

/-- C9: for an odd prime `s`, the sieve's rejection test
`x mod s = (s-1)/2` holds exactly when `s` divides `2x + 1`: the tested
residue class is the unique one making the safe-prime candidate `2x + 1`
divisible by `s`. -/
theorem C9_sieve_test_iff {s : Nat} (hs : s.Prime) (hodd : Odd s) (x : Nat) :
    (sieve_test x s = true ↔ s ∣ 2 * x + 1) := by
  obtain ⟨k, hk⟩ := hodd
  have hs2 : s ≠ 2 := by
    intro h2
    rw [h2] at hk
    omega
  have hs3 : 3 ≤ s := by
    have := hs.two_le
    omega
  have hk1 : 1 ≤ k := by omega
  have hhalf : (s - 1) / 2 = k := by omega
  have hcong : 2 * x + 1 ≡ 2 * (x % s) + 1 [MOD s] :=
    Nat.ModEq.add_right 1 (Nat.ModEq.mul_left 2 (Nat.mod_modEq x s).symm)
  unfold sieve_test
  rw [beq_iff_eq, hhalf]
  constructor
  · intro hx
    have hzero : 2 * (x % s) + 1 ≡ 0 [MOD s] := by
      rw [hx]
      have hself : 2 * k + 1 = s := by omega
      rw [hself]
      exact Nat.modEq_zero_iff_dvd.mpr dvd_rfl
    exact Nat.modEq_zero_iff_dvd.mp (hcong.trans hzero)
  · intro hdvd
    have hzero : 2 * (x % s) + 1 ≡ 0 [MOD s] :=
      hcong.symm.trans (Nat.modEq_zero_iff_dvd.mpr hdvd)
    have hdvd2 : s ∣ 2 * (x % s) + 1 := Nat.modEq_zero_iff_dvd.mp hzero
    obtain ⟨e, he⟩ := hdvd2
    have hr : x % s < s := Nat.mod_lt _ (by omega)
    have hlt : s * e < s * 2 := by omega
    have he2 : e < 2 := by
      by_contra hc
      have hge : s * 2 ≤ s * e := Nat.mul_le_mul_left s (by omega)
      omega
    have he0 : e ≠ 0 := by
      intro h0
      rw [h0, Nat.mul_zero] at he
      omega
    have he1 : e = 1 := by omega
    rw [he1, Nat.mul_one] at he
    omega

/-- Witness for C9 at `s = 7`, `x = 3` (indeed `7 ∣ 2·3 + 1`). -/
theorem C9_sieve_test_iff_witness :
    Nat.Prime 7 ∧ Odd 7 ∧ (sieve_test 3 7 = true ↔ 7 ∣ 2 * 3 + 1) :=
  ⟨by norm_num, ⟨3, by norm_num⟩, C9_sieve_test_iff (by norm_num) ⟨3, by norm_num⟩ 3⟩

/-- C10: for `n ≥ 2`, whatever `sample_in_mult_group` returns satisfies
`1 ≤ r < n` and `gcd(r, n) = 1`; consequently the nonce returned alongside
the ciphertext by `encrypt_with_random` always lies strictly inside
`[1, N)` and is coprime to `N`. -/
theorem C10_sample_in_mult_group {n : Int} (hn : 2 ≤ n) :
    (∀ draws r, sample_in_mult_group draws n = some r →
      1 ≤ r ∧ r < n ∧ Int.gcd r n = 1) ∧
    (∀ (ek : EncryptionKey) draws x c r, ek.n = n →
      encrypt_with_random ek draws x = some (.ok (c, r)) →
      1 ≤ r ∧ r < n ∧ Int.gcd r n = 1) := by
  have hmain : ∀ draws r, sample_in_mult_group draws n = some r →
      1 ≤ r ∧ r < n ∧ Int.gcd r n = 1 := by
    intro draws
    induction draws with
    | nil =>
      intro r h
      simp [sample_in_mult_group] at h
    | cons d rest ih =>
      intro r h
      unfold sample_in_mult_group at h
      dsimp only at h
      by_cases hm : in_mult_group (d % n) n = true
      · rw [if_pos hm] at h
        have hr := ((Option.some.injEq _ _).mp h).symm
        have hb : 0 ≤ d % n ∧ d % n < n :=
          ⟨Int.emod_nonneg _ (by omega), Int.emod_lt_of_pos _ (by omega)⟩
        unfold in_mult_group at hm
        simp only [Bool.and_eq_true, decide_eq_true_eq, beq_iff_eq] at hm
        have hne : d % n ≠ 0 := by
          intro h0
          rw [h0, Int.gcd_zero_left] at hm
          omega
        refine ⟨by omega, by omega, by rw [hr]; exact hm.2⟩
      · rw [if_neg hm] at h
        exact ih r h
  refine ⟨hmain, ?_⟩
  intro ek draws x c r hekn h
  unfold encrypt_with_random at h
  rcases Option.map_eq_some'.mp h with ⟨nonce, hs, heq⟩
  rcases henc : ek.encrypt_with x nonce with e | c0
  · rw [henc] at heq
    cases heq
  · rw [henc] at heq
    have hpair := (Except.ok.injEq _ _).mp heq
    have hr : nonce = r := congrArg Prod.snd hpair
    rw [hekn] at hs
    rw [← hr]
    exact hmain draws nonce hs

/-- Witness for C10 at `n = 15` with a single draw 2; the nonce returned by
`encrypt_with_random` on the same draw stream is that very 2. -/
theorem C10_sample_in_mult_group_witness :
    ((2 : Int) ≤ 15) ∧
    (sample_in_mult_group [2] 15 = some 2 ∧
      (1 ≤ (2 : Int) ∧ (2 : Int) < 15 ∧ Int.gcd 2 15 = 1)) ∧
    (encrypt_with_random (EncryptionKey.from_n 15) [2] 7 = some (.ok (83, 2)) ∧
      (1 ≤ (2 : Int) ∧ (2 : Int) < 15 ∧ Int.gcd 2 15 = 1)) :=
  ⟨by norm_num,
   ⟨by decide, (C10_sample_in_mult_group (by norm_num)).1 [2] 2 (by decide)⟩,
   ⟨by decide, (C10_sample_in_mult_group (by norm_num)).2
     (EncryptionKey.from_n 15) [2] 7 83 2 (by decide) (by decide)⟩⟩
